import Mathlib

/-!
Verification development for the SkillQuizzer quiz application (`app.py`).

The core of the program is `parse_questions`, which turns a free-form text
blob into a validated list of question records, and the Submit-Answers
scoring handler.  We embed those parts of the source shallowly: strings are
`List Char`, each concrete regular expression used by the source is modelled
by an executable scanning function that reproduces Python's leftmost-match
semantics (greedy `\s*` with backtracking, lazy `(.+?)` groups, `re.DOTALL`
/ `re.IGNORECASE` where the source uses them), and `dict` construction is
modelled by insertion with replacement.  Whitespace is modelled as the ASCII
whitespace characters matched by Python's `\s`.
-/

/-- Strings of the embedded program: lists of characters. -/
abbrev Str := List Char

/-- Python's `\s` / `str.strip` whitespace class (ASCII part). -/
def isWs (c : Char) : Bool :=
  c == ' ' || c == '\t' || c == '\n' || c == '\r' || c == '\x0b' || c == '\x0c'

/-- `str.lstrip()`: drop leading whitespace. -/
def lstrip (s : Str) : Str := s.dropWhile isWs

/-- `str.rstrip()`: drop trailing whitespace. -/
def rstrip (s : Str) : Str := (s.reverse.dropWhile isWs).reverse

/-- Python `str.strip()`: drop whitespace on both ends. -/
def pyStrip (s : Str) : Str := lstrip (rstrip s)

/-- Python `str.capitalize()`: first character upper-cased, rest lower-cased. -/
def pyCapitalize : Str → Str
  | [] => []
  | c :: rest => c.toUpper :: rest.map Char.toLower

/-- Case-insensitive prefix test: does `s` start with (lower-case) pattern `p`?
Models matching a literal under `re.IGNORECASE`. -/
def ciStarts : Str → Str → Bool
  | [], _ => true
  | _ :: _, [] => false
  | p :: ps, c :: cs => (p == c.toLower) && ciStarts ps cs

/-- Index of the first occurrence of `pat` (nonempty) as a substring of `s`. -/
def firstOcc (pat : Str) : Str → Option Nat
  | [] => none
  | c :: t => if pat.isPrefixOf (c :: t) then some 0 else (firstOcc pat t).map (· + 1)

/-- Index of the first occurrence of `pat` in `s` at position ≥ 1. -/
def firstOccFrom1 (pat : Str) : Str → Option Nat
  | [] => none
  | _ :: t => (firstOcc pat t).map (· + 1)

/-- Does `pat` (nonempty) occur as a substring of `s`? -/
def containsSub (pat : Str) : Str → Bool
  | [] => false
  | c :: t => pat.isPrefixOf (c :: t) || containsSub pat t

/-- Length of the maximal whitespace run at the front of `s`. -/
def wsRunLen (s : Str) : Nat := (s.takeWhile isWs).length

/-- Matching `\s*(.+?)` followed by the literal `em` (with `re.DOTALL`), at a
fixed start position whose text is `rest`, where `w` counts down the
whitespace characters the greedy `\s*` currently consumes.  For each `w`
(largest first), the lazy group is the shortest nonempty prefix of
`rest.drop w` that is followed by `em`. -/
def tryBetweenGo (em rest : Str) : Nat → Option Str
  | 0 => (firstOccFrom1 em rest).map (fun j => rest.take j)
  | w + 1 =>
    match firstOccFrom1 em (rest.drop (w + 1)) with
    | some j => some ((rest.drop (w + 1)).take j)
    | none => tryBetweenGo em rest w

/-- Matching `\s*(.+?)` ++ `em` against `rest`, greedy `\s*` tried longest
first, as the regex engine does. -/
def tryBetween (em rest : Str) : Option Str := tryBetweenGo em rest (wsRunLen rest)

/-- `re.search(lbl + "\\s*(.+?)" + em, s, re.DOTALL)`, returning group 1:
scan positions left to right; at each position where the literal `lbl`
matches, try the rest of the pattern; on failure continue scanning.
Models lines 91 and 94 of `app.py`. -/
def searchPat (lbl em : Str) : Str → Option Str
  | [] => none
  | c :: rest =>
    if lbl.isPrefixOf (c :: rest) then
      match tryBetween em ((c :: rest).drop lbl.length) with
      | some g => some g
      | none => searchPat lbl em rest
    else searchPat lbl em rest

/-- `re.search(r"Difficulty:\s*(medium|hard)", block, re.IGNORECASE)`,
returning group 1 (line 90 of `app.py`).  After the case-insensitive label,
the greedy `\s*` skips the maximal whitespace run; backtracking it cannot
help since `medium`/`hard` start with non-whitespace characters. -/
def searchDiff : Str → Option Str
  | [] => none
  | c :: rest =>
    if ciStarts "difficulty:".data (c :: rest) then
      let r2 := ((c :: rest).drop 11).dropWhile isWs
      if ciStarts "medium".data r2 then some (r2.take 6)
      else if ciStarts "hard".data r2 then some (r2.take 4)
      else searchDiff rest
    else searchDiff rest

/-- `re.search(r"Correct:\s*([A-D])", block)`, returning group 1
(line 99 of `app.py`); same backtracking argument as `searchDiff`. -/
def searchCorrect : Str → Option Char
  | [] => none
  | c :: rest =>
    if "Correct:".data.isPrefixOf (c :: rest) then
      match ((c :: rest).drop 8).dropWhile isWs with
      | d :: _ => if 'A' ≤ d ∧ d ≤ 'D' then some d else searchCorrect rest
      | [] => searchCorrect rest
    else searchCorrect rest

/-- Matching `\s*(.+)` (no DOTALL) against `v` preceded by an available run
of whitespace given in reverse order `wsRev`: the greedy `\s*` consumed the
whole run; if the greedy `(.+)` (rest of the current line) is empty, give
back one whitespace character at a time.  Returns the group and the
remainder of the string after the match. -/
def tryOptGoBT : Str → Str → Option (Str × Str)
  | [], v =>
    let g := v.takeWhile (fun c => c != '\n')
    if g = [] then none else some (g, v.dropWhile (fun c => c != '\n'))
  | w :: ws, v =>
    let g := v.takeWhile (fun c => c != '\n')
    if g = [] then tryOptGoBT ws (w :: v) else some (g, v.dropWhile (fun c => c != '\n'))

/-- `re.findall(r"([A-D])\)\s*(.+)", s)` (line 96 of `app.py`), fuelled:
scan left to right; at a letter A–D followed by `)`, match `\s*(.+)` and
resume after the match; otherwise advance one character.  The fuel strictly
exceeds the number of scanning steps when initialised to `s.length`. -/
def findallGo : Nat → Str → List (Char × Str)
  | 0, _ => []
  | _ + 1, [] => []
  | _ + 1, [_] => []
  | f + 1, c :: c2 :: r2 =>
    if 'A' ≤ c ∧ c ≤ 'D' then
      if c2 = ')' then
        match tryOptGoBT (r2.takeWhile isWs).reverse (r2.dropWhile isWs) with
        | some (g, rem) => (c, g) :: findallGo f rem
        | none => findallGo f (c2 :: r2)
      else findallGo f (c2 :: r2)
    else findallGo f (c2 :: r2)

/-- All matches of `([A-D])\)\s*(.+)` in `s`, in order. -/
def findallOpts (s : Str) : List (Char × Str) := findallGo s.length s

/-- Python `dict` assignment `d[k] = v`: replace the value if the key is
present (keeping its position), else append. -/
def dictInsert (k : Char) (v : Str) : List (Char × Str) → List (Char × Str)
  | [] => [(k, v)]
  | (k', v') :: t => if k' = k then (k, v) :: t else (k', v') :: dictInsert k v t

/-- The dict comprehension of line 95 of `app.py`: fold the findall matches
into a dict, later occurrences of a key overriding earlier ones. -/
def buildDict (l : List (Char × Str)) : List (Char × Str) :=
  l.foldl (fun d p => dictInsert p.1 p.2 d) []

/-- One parsed question record (the dict `q` of `parse_questions`). -/
structure Q where
  difficulty : Str
  question : Str
  options : List (Char × Str)
  answer : Str
deriving DecidableEq

/-- Lines 95–96 of `app.py`: the options dict built from the findall matches
on the stripped options text, keys upper-cased and values stripped before
insertion. -/
def optionsOf (oRaw : Str) : List (Char × Str) :=
  buildDict ((findallOpts (pyStrip oRaw)).map (fun p => (p.1.toUpper, pyStrip p.2)))

/-- The per-block body of the `for` loop of `parse_questions` (lines 80–106
of `app.py`).  Every `.group(1)` on a failed `re.search` raises
`AttributeError`, caught by the bare `except`, which skips the block: these
paths return `none`.  A block passing extraction is kept only if the
validation of line 102 succeeds (`q['question']` nonempty, exactly 4
options, `q['answer']` nonempty). -/
def parseBlock (block : Str) : Option Q :=
  match searchDiff block with
  | none => none
  | some dRaw =>
    match searchPat "Question:".data "\nOptions:".data block with
    | none => none
    | some qRaw =>
      match searchPat "Options:".data "\nCorrect:".data block with
      | none => none
      | some oRaw =>
        match searchCorrect block with
        | none => none
        | some a =>
          if pyStrip qRaw ≠ [] ∧ (optionsOf oRaw).length = 4 ∧ [a.toUpper] ≠ ([] : Str) then
            some ⟨pyCapitalize dRaw, pyStrip qRaw, optionsOf oRaw, [a.toUpper]⟩
          else none

/-- The block delimiter `'[Question_'` of line 78 of `app.py`. -/
def QDELIM : Str := "[Question_".data

/-- Fuelled splitting of `s` on the literal `QDELIM`, Python `str.split`
semantics (leftmost, non-overlapping).  Fuel `s.length` always suffices
since each found delimiter consumes ten characters. -/
def splitGo : Nat → Str → List Str
  | 0, s => [s]
  | f + 1, s =>
    match firstOcc QDELIM s with
    | none => [s]
    | some i => s.take i :: splitGo f (s.drop (i + 10))

/-- `text.split('[Question_')`. -/
def splitOnDelim (s : Str) : List Str := splitGo s.length s

/-- `parse_questions` (lines 76–108 of `app.py`): split on the delimiter,
drop the preamble (`[1:]`), keep the blocks that parse, return at most 7. -/
def parse_questions (text : Str) : List Q :=
  (((splitOnDelim text).drop 1).filterMap parseBlock).take 7

/-- `st.session_state.answers.get(i, '')` with the answers dict modelled as
an association list. -/
def getAnswer (answers : List (Nat × Str)) (i : Nat) : Str :=
  match answers.lookup i with
  | some a => a
  | none => []

/-- The `correct` counter of lines 166–169 of `app.py`. -/
def countCorrect (qs : List Q) (answers : List (Nat × Str)) : Nat :=
  (qs.enum.filter (fun p => getAnswer answers p.1 == p.2.answer)).length

/-- Line 170 of `app.py`: `(correct / len(questions)) * 100`.  Python raises
`ZeroDivisionError` on an empty list, modelled by `none`. -/
def computeScore (qs : List Q) (answers : List (Nat × Str)) : Option ℚ :=
  if qs.length = 0 then none
  else some (((countCorrect qs answers : ℚ) / (qs.length : ℚ)) * 100)

/-- The Submit-Answers handler guard of line 165 of `app.py`:
`if st.session_state.questions and st.button("Submit Answers")`.  The outer
`none` means the scoring body does not run at all. -/
def submitAction (qs : List Q) (answers : List (Nat × Str)) (pressed : Bool) :
    Option (Option ℚ) :=
  if qs ≠ [] ∧ pressed = true then some (computeScore qs answers) else none

/-!
### Well-formed input blocks

The claims quantify over input texts made of well-formed question blocks in
the exact label format that the generation prompt of `app.py` requests
(lines 49–57).  We formalise a well-formed block by its structured content
together with a rendering function producing the block text, and
well-formedness constraints on the field texts: a block number made of
digits, a difficulty token that is `medium` or `hard` up to case, and
question/option texts over lower-case letters, digits and spaces that do
not strip to the empty string. -/

/-- Structured content of one question block. -/
structure BlockData where
  num : Str
  diff : Str
  quest : Str
  oA : Str
  oB : Str
  oC : Str
  oD : Str
  ans : Char

/-- Characters allowed in question and option texts: lower-case letters,
digits and spaces (in particular no newline, colon, bracket or upper-case
label initial, so field texts cannot fake a label). -/
def fieldChar (c : Char) : Bool := c.isLower || c.isDigit || c == ' '

/-- A valid field text: allowed characters only, and nonempty after strip. -/
def fieldOk (s : Str) : Prop := (∀ c ∈ s, fieldChar c = true) ∧ pyStrip s ≠ []

/-- Block numbers are digit strings. -/
def numOk (s : Str) : Prop := ∀ c ∈ s, c.isDigit = true

/-- The difficulty token is `medium` or `hard` up to letter case. -/
def diffOk (s : Str) : Prop :=
  s.map Char.toLower = "medium".data ∨ s.map Char.toLower = "hard".data

/-- The correct-answer letter is one of A–D. -/
def ansOk (c : Char) : Prop := c = 'A' ∨ c = 'B' ∨ c = 'C' ∨ c = 'D'

/-- Well-formedness of one block's content. -/
def WFB (b : BlockData) : Prop :=
  numOk b.num ∧ diffOk b.diff ∧ fieldOk b.quest ∧
  fieldOk b.oA ∧ fieldOk b.oB ∧ fieldOk b.oC ∧ fieldOk b.oD ∧ ansOk b.ans

instance decFieldOk (s : Str) : Decidable (fieldOk s) := by
  unfold fieldOk; infer_instance

instance decNumOk (s : Str) : Decidable (numOk s) := by
  unfold numOk; infer_instance

instance decDiffOk (s : Str) : Decidable (diffOk s) := by
  unfold diffOk; infer_instance

instance decAnsOk (c : Char) : Decidable (ansOk c) := by
  unfold ansOk; infer_instance

instance decWFB (b : BlockData) : Decidable (WFB b) := by
  unfold WFB; infer_instance

/-- One option line `\nX) text`. -/
def optLine (c : Char) (t : Str) : Str := '\n' :: c :: ')' :: ' ' :: t

/-- The option lines of a block, concatenated. -/
def optLines (ls : List (Char × Str)) : Str := (ls.map (fun p => optLine p.1 p.2)).flatten

/-- The text of one block after the `[Question_` delimiter, with the options
section and the final part as parameters. -/
def bodyCore (num diff quest optSec tail : Str) : Str :=
  num ++ "]\nDifficulty: ".data ++ diff ++ "\nQuestion: ".data ++ quest ++
    "\nOptions:".data ++ optSec ++ tail

/-- The `Correct:` line closing a block. -/
def correctTail (a : Char) : Str := "\nCorrect: ".data ++ [a] ++ ['\n']

/-- The four option lines of a well-formed block. -/
def goodLines (b : BlockData) : List (Char × Str) :=
  [('A', b.oA), ('B', b.oB), ('C', b.oC), ('D', b.oD)]

/-- The rendered text of one well-formed block (after the delimiter). -/
def renderBody (b : BlockData) : Str :=
  bodyCore b.num b.diff b.quest (optLines (goodLines b)) (correctTail b.ans)

/-- An input text made of the given blocks, each preceded by the delimiter. -/
def renderBlocks (bs : List BlockData) : Str :=
  (bs.map (fun b => QDELIM ++ renderBody b)).flatten

/-- The record `parse_questions` is expected to produce for a well-formed
block: difficulty capitalized, question and options stripped, answer letter
kept. -/
def expected (b : BlockData) : Q :=
  ⟨pyCapitalize b.diff, pyStrip b.quest,
   [('A', pyStrip b.oA), ('B', pyStrip b.oB), ('C', pyStrip b.oC), ('D', pyStrip b.oD)],
   [b.ans]⟩

/-- Kinds of blocks for the mixed-input claim: well-formed, missing the
`Correct:` label, or having only three option lines. -/
inductive BlockKind
  | good
  | noCorrect
  | threeOpts
deriving DecidableEq

/-- Rendering of a tagged block: `good` renders all parts; `noCorrect`
omits the whole `Correct:` line; `threeOpts` omits the `D)` option line. -/
def renderTagged : BlockKind × BlockData → Str
  | (BlockKind.good, b) => renderBody b
  | (BlockKind.noCorrect, b) =>
      bodyCore b.num b.diff b.quest (optLines (goodLines b)) ['\n']
  | (BlockKind.threeOpts, b) =>
      bodyCore b.num b.diff b.quest (optLines [('A', b.oA), ('B', b.oB), ('C', b.oC)])
        (correctTail b.ans)

/-- An input text made of the given tagged blocks. -/
def renderTaggedBlocks (l : List (BlockKind × BlockData)) : Str :=
  (l.map (fun p => QDELIM ++ renderTagged p)).flatten

/-- A well-formed block with an extra `E)` option line after `D)`. -/
def renderBodyE (b : BlockData) (oE : Str) : Str :=
  bodyCore b.num b.diff b.quest (optLines (goodLines b ++ [('E', oE)])) (correctTail b.ans)

/-- Conditions on one option line used by the generic option-section lemmas:
an upper-case letter A–E and a valid field text. -/
def lineOk (p : Char × Str) : Prop := ('A' ≤ p.1 ∧ p.1 ≤ 'E') ∧ fieldOk p.2

/-!
### Concrete sample inputs for witnesses and counterexamples -/

/-- A sample question record with the given correct answer. -/
def sampleQ (a : Char) : Q :=
  ⟨"Medium".data, ['q'], [('A', ['a']), ('B', ['b']), ('C', ['c']), ('D', ['d'])], [a]⟩

/-- Four questions with correct answers A, B, C, D. -/
def sampleQs : List Q := [sampleQ 'A', sampleQ 'B', sampleQ 'C', sampleQ 'D']

/-- Stored answers A, B, X, D (the third does not match any correct letter). -/
def sampleAnswers : List (Nat × Str) := [(0, ['A']), (1, ['B']), (2, ['X']), (3, ['D'])]

/-- A concrete well-formed block content. -/
def sampleBlock : BlockData :=
  ⟨['1'], "medium".data, "what is two plus two".data,
   "three".data, "four".data, "five".data, "six".data, 'B'⟩

/-- A block text whose options section has a duplicate `A)` line besides
`B)`, `C)` and `D)` lines. -/
def dupOptionsText : Str :=
  ("[Question_1]\nDifficulty: medium\nQuestion: pick one\nOptions:\nA) one\nA) two\nB) b\nC) c\nD) d\nCorrect: A\n").data

/-- A block text with no `Difficulty:` label but all other fields well-formed. -/
def noDiffText : Str :=
  ("[Question_1]\nQuestion: pick one\nOptions:\nA) a\nB) b\nC) c\nD) d\nCorrect: A\n").data

/-- A block text whose difficulty token is `easy` (invalid) but with all
other fields well-formed. -/
def badDiffText : Str :=
  ("[Question_1]\nDifficulty: easy\nQuestion: pick one\nOptions:\nA) a\nB) b\nC) c\nD) d\nCorrect: A\n").data

/-- A concrete block body used to instantiate the options/answer invariant. -/
def c9Block : Str :=
  ("1]\nDifficulty: medium\nQuestion: pick\nOptions:\nA) a\nB) b\nC) c\nD) d\nCorrect: B\n").data

/-- The record parsed from `c9Block`. -/
def c9Rec : Q :=
  ⟨"Medium".data, "pick".data,
   [('A', ['a']), ('B', ['b']), ('C', ['c']), ('D', ['d'])], ['B']⟩

/-- The body (after the delimiter) of the duplicate-`A)` block. -/
def dupBody : Str :=
  ("1]\nDifficulty: medium\nQuestion: pick one\nOptions:\nA) one\nA) two\nB) b\nC) c\nD) d\nCorrect: A\n").data

/-- The record parsed from the duplicate-`A)` block: accepted, with the
second `A)` text overriding the first. -/
def dupRec : Q :=
  ⟨"Medium".data, "pick one".data,
   [('A', "two".data), ('B', ['b']), ('C', ['c']), ('D', ['d'])], ['A']⟩

/-- The body (after the delimiter) of a block with no `Difficulty:` label. -/
def noDiffBody : Str :=
  ("1]\nQuestion: pick one\nOptions:\nA) a\nB) b\nC) c\nD) d\nCorrect: A\n").data

/-- Right-strip the text of the last option line (the effect of
`options_text.strip()` on a rendered option section, whose left edge is an
option letter). -/
def rstripLast : List (Char × Str) → List (Char × Str)
  | [] => []
  | [p] => [(p.1, rstrip p.2)]
  | p :: q :: t => p :: rstripLast (q :: t)

/-- A family of concrete well-formed blocks indexed by a digit. -/
def mkSample (n : Char) : BlockData :=
  ⟨[n], "medium".data, 'q' :: 'u' :: [n], "aa".data, "bb".data, "cc".data, "dd".data, 'A'⟩

/-- Seven concrete well-formed blocks. -/
def ex7 : List BlockData := ['1', '2', '3', '4', '5', '6', '7'].map mkSample

/-- Ten concrete well-formed blocks. -/
def ex10 : List BlockData := ['0', '1', '2', '3', '4', '5', '6', '7', '8', '9'].map mkSample

/-- Five well-formed and two malformed blocks, interleaved. -/
def exMixed : List (BlockKind × BlockData) :=
  [(BlockKind.good, mkSample '1'), (BlockKind.noCorrect, mkSample '2'),
   (BlockKind.good, mkSample '3'), (BlockKind.threeOpts, mkSample '4'),
   (BlockKind.good, mkSample '5'), (BlockKind.good, mkSample '6'),
   (BlockKind.good, mkSample '7')]

/-!
## Theorems

### Character facts -/

/-- A character between `'A'` and `'D'` is one of the four letters. -/
lemma mem_AD (c : Char) (h1 : 'A' ≤ c) (h2 : c ≤ 'D') :
    c = 'A' ∨ c = 'B' ∨ c = 'C' ∨ c = 'D' := by
  rw [Char.le_def] at h1 h2
  rcases c with ⟨⟨⟨v, hv⟩⟩, hvalid⟩
  simp [UInt32.le_def, BitVec.le_def] at h1 h2
  simp only [Char.ext_iff, UInt32.ext_iff, BitVec.toNat_eq]
  have e1 : ('A').val.toNat = 65 := rfl
  have e2 : ('B').val.toNat = 66 := rfl
  have e3 : ('C').val.toNat = 67 := rfl
  have e4 : ('D').val.toNat = 68 := rfl
  have ev : ({ toBitVec := { toFin := ⟨v, hv⟩ } } : UInt32).toNat = v := rfl
  rw [e1, e2, e3, e4, ev]
  omega

/-- `str.upper()` fixes the letters A–D. -/
lemma toUpper_AD (c : Char) (h1 : 'A' ≤ c) (h2 : c ≤ 'D') : c.toUpper = c := by
  rcases mem_AD c h1 h2 with h | h | h | h <;> subst h <;> decide

/-!
### Scoring (claims C7 and C8) -/

/-- The `correct` counter never exceeds the number of questions. -/
lemma countCorrect_le (qs : List Q) (answers : List (Nat × Str)) :
    countCorrect qs answers ≤ qs.length := by
  calc countCorrect qs answers ≤ qs.enum.length := List.length_filter_le _ _
    _ = qs.length := List.enum_length

/-- C7: with `n ≥ 1` questions the Submit handler computes
`score = 100 * (number of matching stored answers) / n`, the score always
lies in `[0, 100]`, and on 4 questions with correct answers A,B,C,D and
stored answers A,B,X,D the score is exactly 75. -/
theorem claim_C7 :
    (∀ (qs : List Q) (answers : List (Nat × Str)), qs ≠ [] →
      computeScore qs answers =
        some (100 * (countCorrect qs answers : ℚ) / (qs.length : ℚ)) ∧
      ∀ s : ℚ, computeScore qs answers = some s → 0 ≤ s ∧ s ≤ 100) ∧
    computeScore sampleQs sampleAnswers = some 75 := by
  constructor
  · intro qs answers hne
    have hn : qs.length ≠ 0 := by
      simpa [List.length_eq_zero] using hne
    have hn' : (0 : ℚ) < (qs.length : ℚ) := by
      exact_mod_cast Nat.pos_of_ne_zero hn
    constructor
    · rw [computeScore, if_neg hn]
      congr 1
      rw [div_mul_eq_mul_div, mul_comm]
    · intro s hs
      rw [computeScore, if_neg hn] at hs
      have hs' : ((countCorrect qs answers : ℚ) / (qs.length : ℚ)) * 100 = s :=
        Option.some.inj hs
      have hc : (countCorrect qs answers : ℚ) ≤ (qs.length : ℚ) := by
        exact_mod_cast countCorrect_le qs answers
      have hdiv1 : (countCorrect qs answers : ℚ) / (qs.length : ℚ) ≤ 1 :=
        (div_le_one hn').mpr hc
      have hdiv0 : 0 ≤ (countCorrect qs answers : ℚ) / (qs.length : ℚ) :=
        div_nonneg (by positivity) (le_of_lt hn')
      constructor
      · rw [← hs']
        positivity
      · rw [← hs']
        calc ((countCorrect qs answers : ℚ) / (qs.length : ℚ)) * 100
            ≤ 1 * 100 := by
              exact mul_le_mul_of_nonneg_right hdiv1 (by norm_num)
          _ = 100 := one_mul 100
  · have h3 : countCorrect sampleQs sampleAnswers = 3 := rfl
    have h4 : sampleQs.length = 4 := rfl
    rw [computeScore, h3, h4]
    norm_num

/-- Witness for C7 at the concrete 4-question state. -/
theorem claim_C7_witness :
    computeScore sampleQs sampleAnswers =
      some (100 * (countCorrect sampleQs sampleAnswers : ℚ) / (sampleQs.length : ℚ)) :=
  (claim_C7.1 sampleQs sampleAnswers (by decide)).1

/-- C8: the Submit-Answers action never reaches the division: the guard of
line 165 of `app.py` only runs the scoring body on a nonempty question
list, on which the division is defined (`some` value, never the
`ZeroDivisionError` outcome `some none`). -/
theorem claim_C8 :
    ∀ (qs : List Q) (answers : List (Nat × Str)) (pressed : Bool),
      submitAction qs answers pressed ≠ some none := by
  intro qs answers pressed
  rw [submitAction]
  split
  · next h =>
    have hn : qs.length ≠ 0 := by
      simpa [List.length_eq_zero] using h.1
    rw [computeScore, if_neg hn]
    intro hcon
    exact Option.noConfusion (Option.some.inj hcon)
  · intro hcon
    exact Option.noConfusion hcon

/-!
### Empty and delimiter-free input (claim C4) -/

/-- If `pat` never occurs in `s`, the occurrence search fails. -/
lemma firstOcc_none_of_not_contains (pat : Str) :
    ∀ s : Str, containsSub pat s = false → firstOcc pat s = none := by
  intro s
  induction s with
  | nil => intro _; rfl
  | cons c t ih =>
    intro h
    rw [containsSub, Bool.or_eq_false_iff] at h
    rw [firstOcc, if_neg (by simp [h.1]), ih h.2]
    rfl

/-- Python `split` on a separator absent from the string returns the
one-element list. -/
lemma splitOnDelim_no_delim (s : Str) (h : containsSub QDELIM s = false) :
    splitOnDelim s = [s] := by
  rw [splitOnDelim]
  cases hf : s.length with
  | zero => rfl
  | succ n => rw [splitGo, firstOcc_none_of_not_contains QDELIM s h]

/-- C4: `parse_questions` is a total function returning a list, and on any
input without an occurrence of the delimiter `'[Question_'` it returns the
empty list. -/
theorem claim_C4 :
    ∀ s : Str, containsSub QDELIM s = false → parse_questions s = [] := by
  intro s h
  rw [parse_questions, splitOnDelim_no_delim s h]
  rfl

/-- Witness for C4 on a concrete delimiter-free string. -/
theorem claim_C4_witness :
    containsSub QDELIM "no questions in this text".data = false ∧
      parse_questions "no questions in this text".data = [] :=
  ⟨by decide, claim_C4 _ (by decide)⟩

/-!
### The options/answer invariant (claim C9) -/

/-- Unfolding of the findall scan at fuel zero. -/
lemma findallGo_zero (s : Str) : findallGo 0 s = [] := rfl

/-- Unfolding of the findall scan at the end of the string. -/
lemma findallGo_nil (f : Nat) : findallGo (f + 1) [] = [] := rfl

/-- Unfolding of the findall scan on a single character: no room for `X)`. -/
lemma findallGo_one (f : Nat) (c : Char) : findallGo (f + 1) [c] = [] := rfl

/-- One step of the findall scan with at least two characters left. -/
lemma findallGo_cons (f : Nat) (c c2 : Char) (r2 : Str) :
    findallGo (f + 1) (c :: c2 :: r2) =
      if 'A' ≤ c ∧ c ≤ 'D' then
        if c2 = ')' then
          match tryOptGoBT (r2.takeWhile isWs).reverse (r2.dropWhile isWs) with
          | some (g, rem) => (c, g) :: findallGo f rem
          | none => findallGo f (c2 :: r2)
        else findallGo f (c2 :: r2)
      else findallGo f (c2 :: r2) := rfl

/-- Every match produced by the findall scan has a key letter in A–D. -/
lemma findallGo_mem_range (f : Nat) :
    ∀ (s : Str) (p : Char × Str), p ∈ findallGo f s → 'A' ≤ p.1 ∧ p.1 ≤ 'D' := by
  induction f with
  | zero =>
    intro s p hp
    rw [findallGo_zero] at hp
    exact absurd hp (List.not_mem_nil p)
  | succ f ih =>
    intro s p hp
    match s with
    | [] =>
      rw [findallGo_nil] at hp
      exact absurd hp (List.not_mem_nil p)
    | [c] =>
      rw [findallGo_one] at hp
      exact absurd hp (List.not_mem_nil p)
    | c :: c2 :: r2 =>
      rw [findallGo_cons] at hp
      by_cases hc : 'A' ≤ c ∧ c ≤ 'D'
      · rw [if_pos hc] at hp
        by_cases hc2 : c2 = ')'
        · rw [if_pos hc2] at hp
          cases htry : tryOptGoBT (r2.takeWhile isWs).reverse (r2.dropWhile isWs) with
          | none =>
            rw [htry] at hp
            exact ih _ p hp
          | some gr =>
            rw [htry] at hp
            rcases List.mem_cons.mp hp with h | h
            · subst h
              exact hc
            · exact ih _ p h
        · rw [if_neg hc2] at hp
          exact ih _ p hp
      · rw [if_neg hc] at hp
        exact ih _ p hp

/-- The keys of a dict after one Python assignment: unchanged when the key
is present, appended otherwise. -/
lemma dictInsert_keys (k : Char) (v : Str) :
    ∀ d : List (Char × Str),
      (dictInsert k v d).map Prod.fst =
        if k ∈ d.map Prod.fst then d.map Prod.fst else d.map Prod.fst ++ [k] := by
  intro d
  induction d with
  | nil => simp [dictInsert]
  | cons p t ih =>
    rcases p with ⟨k', v'⟩
    by_cases hk : k' = k
    · subst hk
      simp [dictInsert]
    · rw [dictInsert, if_neg hk]
      by_cases hmem : k ∈ t.map Prod.fst
      · simp only [List.map_cons, ih, if_pos hmem]
        rw [if_pos]
        exact List.mem_cons_of_mem _ hmem
      · simp only [List.map_cons, ih, if_neg hmem]
        rw [if_neg]
        · simp
        · intro hcon
          rcases List.mem_cons.mp hcon with h | h
          · exact hk h.symm
          · exact hmem h

/-- Keys of the folded dict come from the seed dict or from the inserted
pairs. -/
lemma buildDictGo_sub :
    ∀ (l d : List (Char × Str)) (x : Char),
      x ∈ ((l.foldl (fun d p => dictInsert p.1 p.2 d) d).map Prod.fst) →
      x ∈ d.map Prod.fst ∨ x ∈ l.map Prod.fst := by
  intro l
  induction l with
  | nil =>
    intro d x hx
    exact Or.inl hx
  | cons p t ih =>
    intro d x hx
    rw [List.foldl_cons] at hx
    rcases ih (dictInsert p.1 p.2 d) x hx with h | h
    · rw [dictInsert_keys] at h
      by_cases hmem : p.1 ∈ d.map Prod.fst
      · rw [if_pos hmem] at h
        exact Or.inl h
      · rw [if_neg hmem] at h
        rcases List.mem_append.mp h with h' | h'
        · exact Or.inl h'
        · right
          rw [List.mem_singleton.mp h']
          exact List.mem_cons_self _ _
    · right
      exact List.mem_cons_of_mem _ h

/-- The folded dict has pairwise-distinct keys. -/
lemma buildDictGo_nodup :
    ∀ (l d : List (Char × Str)), (d.map Prod.fst).Nodup →
      ((l.foldl (fun d p => dictInsert p.1 p.2 d) d).map Prod.fst).Nodup := by
  intro l
  induction l with
  | nil => intro d hd; exact hd
  | cons p t ih =>
    intro d hd
    rw [List.foldl_cons]
    apply ih
    rw [dictInsert_keys]
    by_cases hmem : p.1 ∈ d.map Prod.fst
    · rw [if_pos hmem]; exact hd
    · rw [if_neg hmem]
      rw [List.nodup_append]
      exact ⟨hd, List.nodup_singleton _, by
        intro a ha hb
        rw [List.mem_singleton] at hb
        subst hb
        exact hmem ha⟩

/-- The options dict of a record has pairwise-distinct keys. -/
lemma buildDict_nodup (l : List (Char × Str)) : ((buildDict l).map Prod.fst).Nodup :=
  buildDictGo_nodup l [] (by simp)

/-- The answer search only ever returns a letter in A–D. -/
lemma searchCorrect_range :
    ∀ (s : Str) (c : Char), searchCorrect s = some c → 'A' ≤ c ∧ c ≤ 'D' := by
  intro s
  induction s with
  | nil => intro c h; exact Option.noConfusion h
  | cons a rest ih =>
    intro c h
    rw [searchCorrect] at h
    by_cases hp : "Correct:".data.isPrefixOf (a :: rest) = true
    · rw [if_pos hp] at h
      cases hd : ((a :: rest).drop 8).dropWhile isWs with
      | nil =>
        rw [hd] at h
        exact ih c h
      | cons d drest =>
        rw [hd] at h
        dsimp only at h
        by_cases hdr : 'A' ≤ d ∧ d ≤ 'D'
        · rw [if_pos hdr] at h
          rw [← Option.some.inj h]
          exact hdr
        · rw [if_neg hdr] at h
          exact ih c h
    · rw [if_neg hp] at h
      exact ih c h

/-- C9 (implicit invariant): every record produced by a successful block
parse has an options dict whose key set is exactly {A, B, C, D}, and its
answer is a single letter that is a key of the options dict. -/
theorem claim_C9 :
    ∀ (block : Str) (q : Q), parseBlock block = some q →
      (q.options.map Prod.fst).toFinset = ({'A', 'B', 'C', 'D'} : Finset Char) ∧
      ∃ c v, q.answer = [c] ∧ (c, v) ∈ q.options := by
  intro block q h
  rw [parseBlock] at h
  cases hd : searchDiff block with
  | none => rw [hd] at h; exact Option.noConfusion h
  | some dRaw =>
  rw [hd] at h
  cases hq : searchPat "Question:".data "\nOptions:".data block with
  | none => rw [hq] at h; exact Option.noConfusion h
  | some qRaw =>
  rw [hq] at h
  cases ho : searchPat "Options:".data "\nCorrect:".data block with
  | none => rw [ho] at h; exact Option.noConfusion h
  | some oRaw =>
  rw [ho] at h
  cases ha : searchCorrect block with
  | none => rw [ha] at h; exact Option.noConfusion h
  | some a =>
  rw [ha] at h
  dsimp only at h
  by_cases hval : pyStrip qRaw ≠ [] ∧ (optionsOf oRaw).length = 4 ∧ [a.toUpper] ≠ ([] : Str)
  case neg =>
    rw [if_neg hval] at h
    exact Option.noConfusion h
  rw [if_pos hval] at h
  have hqrec : q = ⟨pyCapitalize dRaw, pyStrip qRaw, optionsOf oRaw, [a.toUpper]⟩ :=
    (Option.some.inj h).symm
  have hlen : (optionsOf oRaw).length = 4 := hval.2.1
  have hkeysub : ∀ x ∈ (optionsOf oRaw).map Prod.fst, 'A' ≤ x ∧ x ≤ 'D' := by
    intro x hx
    rcases buildDictGo_sub _ [] x hx with h' | h'
    · simp at h'
    · rw [List.map_map] at h'
      rcases List.mem_map.mp h' with ⟨p, hp, hpx⟩
      have hr := findallGo_mem_range _ _ p hp
      have : p.1.toUpper = p.1 := toUpper_AD p.1 hr.1 hr.2
      simp only [Function.comp] at hpx
      rw [this] at hpx
      rw [← hpx]
      exact hr
  have hnodup : ((optionsOf oRaw).map Prod.fst).Nodup := buildDict_nodup _
  have hfin : ((optionsOf oRaw).map Prod.fst).toFinset = ({'A', 'B', 'C', 'D'} : Finset Char) := by
    apply Finset.eq_of_subset_of_card_le
    · intro x hx
      rw [List.mem_toFinset] at hx
      have := hkeysub x hx
      rcases mem_AD x this.1 this.2 with h' | h' | h' | h' <;> subst h' <;> decide
    · have hcard : ((optionsOf oRaw).map Prod.fst).toFinset.card = 4 := by
        rw [List.toFinset_card_of_nodup hnodup, List.length_map, hlen]
      rw [hcard]
      decide
  have haup : a.toUpper = a := by
    have := searchCorrect_range block a ha
    exact toUpper_AD a this.1 this.2
  have hamem : a ∈ (optionsOf oRaw).map Prod.fst := by
    have hain : a ∈ ((optionsOf oRaw).map Prod.fst).toFinset := by
      rw [hfin]
      have := searchCorrect_range block a ha
      rcases mem_AD a this.1 this.2 with h' | h' | h' | h' <;> subst h' <;> decide
    exact List.mem_toFinset.mp hain
  rcases List.mem_map.mp hamem with ⟨p, hp, hpa⟩
  subst hqrec
  refine ⟨hfin, a, p.2, by rw [haup], ?_⟩
  have : p = (a, p.2) := by
    rw [← hpa]
  rw [← this]
  exact hp

/-- Witness for C9 at a concrete well-formed block body. -/
theorem claim_C9_witness :
    parseBlock c9Block = some c9Rec ∧
    ∃ c v, c9Rec.answer = [c] ∧ (c, v) ∈ c9Rec.options :=
  ⟨by decide, (claim_C9 c9Block c9Rec (by decide)).2⟩

/-!
### Duplicate option letters (claim C5) and missing difficulty (claim C6) -/

/-- Counterexample to C5 as stated: a block whose options section has two
`A)` lines besides `B)`, `C)` and `D)` lines is not rejected —
`parse_questions` produces a record from it (with the second `A)` text). -/
theorem claim_C5_counterexample : parse_questions dupOptionsText = [dupRec] := by decide

/-- C5 amended: a successfully parsed block always has exactly 4 options
with pairwise-distinct keys, but duplicate option letters do not reject the
block: the dict collapses them (the last occurrence wins), and the
duplicate-`A)` block parses to a record. -/
theorem claim_C5 :
    (∀ (block : Str) (q : Q), parseBlock block = some q →
      q.options.length = 4 ∧ (q.options.map Prod.fst).Nodup) ∧
    parseBlock dupBody = some dupRec := by
  constructor
  · intro block q h
    rw [parseBlock] at h
    cases hd : searchDiff block with
    | none => rw [hd] at h; exact Option.noConfusion h
    | some dRaw =>
    rw [hd] at h
    cases hq : searchPat "Question:".data "\nOptions:".data block with
    | none => rw [hq] at h; exact Option.noConfusion h
    | some qRaw =>
    rw [hq] at h
    cases ho : searchPat "Options:".data "\nCorrect:".data block with
    | none => rw [ho] at h; exact Option.noConfusion h
    | some oRaw =>
    rw [ho] at h
    cases ha : searchCorrect block with
    | none => rw [ha] at h; exact Option.noConfusion h
    | some a =>
    rw [ha] at h
    dsimp only at h
    by_cases hval : pyStrip qRaw ≠ [] ∧ (optionsOf oRaw).length = 4 ∧ [a.toUpper] ≠ ([] : Str)
    case neg =>
      rw [if_neg hval] at h
      exact Option.noConfusion h
    rw [if_pos hval] at h
    rw [← Option.some.inj h]
    exact ⟨hval.2.1, buildDict_nodup _⟩
  · decide

/-- Witness for the amended C5 at the duplicate-`A)` block. -/
theorem claim_C5_witness :
    dupRec.options.length = 4 ∧ (dupRec.options.map Prod.fst).Nodup :=
  claim_C5.1 dupBody dupRec (by decide)

/-- Counterexample to C6 as stated: on a block with no `Difficulty:` label
(and on one with the invalid token `easy`) whose other fields are
well-formed, `parse_questions` produces no record at all — not a record
with difficulty defaulted to Medium. -/
theorem claim_C6_counterexample :
    parse_questions noDiffText = [] ∧ parse_questions badDiffText = [] := by
  constructor <;> decide

/-- C6 amended: when the difficulty search fails on a block (no
`Difficulty:` label followed by a medium/hard token), the `.group(1)` call
raises and the whole block is skipped; the `"Medium"` initial value of line
83 never reaches the output. -/
theorem claim_C6 :
    ∀ block : Str, searchDiff block = none → parseBlock block = none := by
  intro block h
  rw [parseBlock, h]

/-- Witness for the amended C6 at the missing-difficulty block body. -/
theorem claim_C6_witness :
    searchDiff noDiffBody = none ∧ parseBlock noDiffBody = none :=
  ⟨by decide, claim_C6 noDiffBody (by decide)⟩

/-!
### Character and prefix helper facts -/

/-- Two characters differ when a decidable character predicate separates
them. -/
lemma ne_of_pred_false {p : Char → Bool} {c x : Char}
    (h : p c = true) (hx : p x = false) : c ≠ x := by
  intro he
  subst he
  rw [h] at hx
  exact Bool.noConfusion hx

/-- A character between `'A'` and `'E'` is one of the five letters. -/
lemma mem_AE (c : Char) (h1 : 'A' ≤ c) (h2 : c ≤ 'E') :
    c = 'A' ∨ c = 'B' ∨ c = 'C' ∨ c = 'D' ∨ c = 'E' := by
  rw [Char.le_def] at h1 h2
  rcases c with ⟨⟨⟨v, hv⟩⟩, hvalid⟩
  simp [UInt32.le_def, BitVec.le_def] at h1 h2
  simp only [Char.ext_iff, UInt32.ext_iff, BitVec.toNat_eq]
  have e1 : ('A').val.toNat = 65 := rfl
  have e2 : ('B').val.toNat = 66 := rfl
  have e3 : ('C').val.toNat = 67 := rfl
  have e4 : ('D').val.toNat = 68 := rfl
  have e5 : ('E').val.toNat = 69 := rfl
  have ev : ({ toBitVec := { toFin := ⟨v, hv⟩ } } : UInt32).toNat = v := rfl
  rw [e1, e2, e3, e4, e5, ev]
  omega

/-- Digits sit below code point 65. -/
lemma isDigit_toNat_lt (c : Char) (h : c.isDigit = true) : c.toNat < 65 := by
  simp [Char.isDigit, Char.le_def, UInt32.le_def, BitVec.le_def] at h
  have hb : c.toNat = c.val.toBitVec.toNat := rfl
  have h9 : ('9').val.toBitVec.toNat = 57 := rfl
  omega

/-- `Char.toLower` fixes characters below code point 65. -/
lemma toLower_fix_of_lt (c : Char) (h : c.toNat < 65) : c.toLower = c := by
  simp only [Char.toLower]
  rw [if_neg]
  omega

/-- A digit never lower-cases to `'d'`. -/
lemma digit_toLower_ne_d (c : Char) (h : c.isDigit = true) : c.toLower ≠ 'd' := by
  rw [toLower_fix_of_lt c (isDigit_toNat_lt c h)]
  exact ne_of_pred_false h (by decide)

/-- Every character of a valid difficulty token lower-cases into `medium`
or `hard`. -/
lemma diffOk_mem_toLower {diff : Str} (h : diffOk diff) {c : Char} (hc : c ∈ diff) :
    c.toLower ∈ "medium".data ∨ c.toLower ∈ "hard".data := by
  rcases h with h | h
  · left
    rw [← h]
    exact List.mem_map_of_mem Char.toLower hc
  · right
    rw [← h]
    exact List.mem_map_of_mem Char.toLower hc

/-- A valid difficulty token contains none of the label initials nor
newline, bracket or colon. -/
lemma diffOk_ne {diff : Str} (h : diffOk diff) {c : Char} (hc : c ∈ diff) :
    c ≠ 'Q' ∧ c ≠ 'O' ∧ c ≠ 'C' ∧ c ≠ '\n' ∧ c ≠ '[' := by
  refine ⟨?_, ?_, ?_, ?_, ?_⟩ <;>
    · intro he
      subst he
      rcases diffOk_mem_toLower h hc with h' | h' <;> exact absurd h' (by decide)

/-- A field character is not a label initial, newline, bracket or colon. -/
lemma fieldChar_ne {c : Char} (h : fieldChar c = true) :
    c ≠ 'Q' ∧ c ≠ 'O' ∧ c ≠ 'C' ∧ c ≠ '\n' ∧ c ≠ '[' := by
  exact ⟨ne_of_pred_false h (by decide), ne_of_pred_false h (by decide),
    ne_of_pred_false h (by decide), ne_of_pred_false h (by decide),
    ne_of_pred_false h (by decide)⟩

/-- A field character is not an upper-case option letter A–D. -/
lemma fieldChar_not_AD {c : Char} (h : fieldChar c = true) : ¬('A' ≤ c ∧ c ≤ 'D') := by
  rintro ⟨h1, h2⟩
  rcases mem_AD c h1 h2 with he | he | he | he <;>
    · subst he
      exact absurd h (by decide)

/-- Facts about a valid answer letter. -/
lemma ansOk_facts {a : Char} (h : ansOk a) :
    ('A' ≤ a ∧ a ≤ 'D') ∧ a.toUpper = a ∧ isWs a = false := by
  rcases h with he | he | he | he <;> subst he <;> exact ⟨by decide, by decide, by decide⟩

/-- A letter at or above `'A'` is not whitespace and not a newline. -/
lemma ge_A_facts {c : Char} (h : 'A' ≤ c) : isWs c = false ∧ c ≠ '\n' := by
  constructor
  · by_contra hws
    rw [Bool.not_eq_false] at hws
    have : ((((c = ' ' ∨ c = '\t') ∨ c = '\n') ∨ c = '\x0d') ∨ c = '\x0b') ∨ c = '\x0c' := by
      simpa [isWs] using hws
    rcases this with ((((he | he) | he) | he) | he) | he <;>
      · subst he
        exact absurd h (by decide)
  · intro he
    subst he
    exact absurd h (by decide)

/-- The empty pattern is a prefix of anything. -/
lemma pfx_nil (t : Str) : List.isPrefixOf ([] : Str) t = true := by
  simp [List.isPrefixOf]

/-- Prefix test on equal heads. -/
lemma pfx_cons (a : Char) (s t : Str) :
    (a :: s).isPrefixOf (a :: t) = s.isPrefixOf t := by
  simp [List.isPrefixOf]

/-- Prefix test fails on distinct heads. -/
lemma pfx_head_false {a b : Char} (s t : Str) (h : a ≠ b) :
    (a :: s).isPrefixOf (b :: t) = false := by
  simp [List.isPrefixOf, h]

/-- A list is a prefix of itself extended. -/
lemma pfx_self_append (s t : Str) : s.isPrefixOf (s ++ t) = true := by
  induction s with
  | nil => exact pfx_nil t
  | cons c cs ih => rw [List.cons_append, pfx_cons, ih]

/-- Case-insensitive matching of a literal against its own lower-casing. -/
lemma ciStarts_self_append (x r : Str) :
    ciStarts (x.map Char.toLower) (x ++ r) = true := by
  induction x with
  | nil => rfl
  | cons c cs ih => simp [ciStarts, ih]

/-- Case-insensitive matching fails on a head mismatch. -/
lemma ciStarts_head_false {p c : Char} (ps s : Str) (h : p ≠ c.toLower) :
    ciStarts (p :: ps) (c :: s) = false := by
  simp [ciStarts, h]

/-!
### Scanning skip lemmas -/

/-- The difficulty search passes over characters that cannot start the
case-insensitive label. -/
lemma searchDiff_skip (x : Str) (s : Str) (h : ∀ c ∈ x, c.toLower ≠ 'd') :
    searchDiff (x ++ s) = searchDiff s := by
  induction x with
  | nil => rfl
  | cons c cs ih =>
    rw [List.cons_append, searchDiff]
    have hfalse : ciStarts "difficulty:".data (c :: (cs ++ s)) = false := by
      have : "difficulty:".data = 'd' :: "ifficulty:".data := rfl
      rw [this]
      exact ciStarts_head_false _ _ (fun he => h c (List.mem_cons_self c cs) he.symm)
    rw [if_neg (by simp [hfalse])]
    exact ih (fun c' hc' => h c' (List.mem_cons_of_mem c hc'))

/-- A labelled search passes over characters distinct from the label's
first character. -/
lemma searchPat_skip (l0 : Char) (lrest em x s : Str) (h : ∀ c ∈ x, c ≠ l0) :
    searchPat (l0 :: lrest) em (x ++ s) = searchPat (l0 :: lrest) em s := by
  induction x with
  | nil => rfl
  | cons c cs ih =>
    rw [List.cons_append, searchPat]
    rw [if_neg (by simp [pfx_head_false _ _ (fun he : l0 = c => h c (List.mem_cons_self c cs) he.symm)])]
    exact ih (fun c' hc' => h c' (List.mem_cons_of_mem c hc'))

/-- A labelled search finds nothing in a string free of the label's first
character. -/
lemma searchPat_none (l0 : Char) (lrest em x : Str) (h : ∀ c ∈ x, c ≠ l0) :
    searchPat (l0 :: lrest) em x = none := by
  induction x with
  | nil => rfl
  | cons c cs ih =>
    rw [searchPat]
    rw [if_neg (by simp [pfx_head_false _ _ (fun he : l0 = c => h c (List.mem_cons_self c cs) he.symm)])]
    exact ih (fun c' hc' => h c' (List.mem_cons_of_mem c hc'))

/-- The answer search passes over characters other than `'C'`. -/
lemma searchCorrect_skip (x s : Str) (h : ∀ c ∈ x, c ≠ 'C') :
    searchCorrect (x ++ s) = searchCorrect s := by
  induction x with
  | nil => rfl
  | cons c cs ih =>
    rw [List.cons_append, searchCorrect]
    have : "Correct:".data = 'C' :: "orrect:".data := rfl
    rw [if_neg (by
      rw [this]
      simp [pfx_head_false _ _ (fun he : 'C' = c => h c (List.mem_cons_self c cs) he.symm)])]
    exact ih (fun c' hc' => h c' (List.mem_cons_of_mem c hc'))

/-- One failing step of the occurrence search. -/
lemma firstOcc_cons_false (pat : Str) (c : Char) (s : Str)
    (h : pat.isPrefixOf (c :: s) = false) :
    firstOcc pat (c :: s) = (firstOcc pat s).map (· + 1) := by
  rw [firstOcc, if_neg (by simp [h])]

/-- The occurrence search passes over characters distinct from the
pattern's first character, shifting the index. -/
lemma firstOcc_skip (p0 : Char) (ps x s : Str) (h : ∀ c ∈ x, c ≠ p0) :
    firstOcc (p0 :: ps) (x ++ s) = (firstOcc (p0 :: ps) s).map (· + x.length) := by
  induction x with
  | nil =>
    rw [List.nil_append]
    cases firstOcc (p0 :: ps) s with
    | none => rfl
    | some j => simp
  | cons c cs ih =>
    rw [List.cons_append,
      firstOcc_cons_false _ _ _ (pfx_head_false _ _ (fun he : p0 = c => h c (List.mem_cons_self c cs) he.symm)),
      ih (fun c' hc' => h c' (List.mem_cons_of_mem c hc'))]
    cases firstOcc (p0 :: ps) s with
    | none => rfl
    | some j =>
      simp only [Option.map_some', Option.some.injEq, List.length_cons]
      omega

/-- The occurrence search hits the pattern at the front. -/
lemma firstOcc_self (p0 : Char) (ps r : Str) :
    firstOcc (p0 :: ps) ((p0 :: ps) ++ r) = some 0 := by
  rw [List.cons_append, firstOcc, if_pos]
  rw [← List.cons_append, pfx_self_append]

/-- A string free of the pattern's head at any position contains no
occurrence. -/
lemma containsSub_skip (p0 : Char) (ps x s : Str) (h : ∀ c ∈ x, c ≠ p0) :
    containsSub (p0 :: ps) (x ++ s) = containsSub (p0 :: ps) s := by
  induction x with
  | nil => rfl
  | cons c cs ih =>
    rw [List.cons_append, containsSub,
      pfx_head_false _ _ (fun he : p0 = c => h c (List.mem_cons_self c cs) he.symm),
      Bool.false_or]
    exact ih (fun c' hc' => h c' (List.mem_cons_of_mem c hc'))

/-- Absence of an occurrence is preserved by dropping a head character. -/
lemma containsSub_tail {pat : Str} {c : Char} {s : Str}
    (h : containsSub pat (c :: s) = false) : containsSub pat s = false := by
  rw [containsSub, Bool.or_eq_false_iff] at h
  exact h.2

/-- Absence of an occurrence is preserved by dropping any prefix. -/
lemma containsSub_drop {pat : Str} (n : Nat) :
    ∀ s : Str, containsSub pat s = false → containsSub pat (s.drop n) = false := by
  induction n with
  | zero => intro s h; exact h
  | succ n ih =>
    intro s h
    cases s with
    | nil => exact h
    | cons c t =>
      rw [List.drop_succ_cons]
      exact ih t (containsSub_tail h)

/-- With no occurrence of `em`, the lazy-group matcher fails at every
whitespace backtrack level. -/
lemma tryBetweenGo_none (em rest : Str) (h : containsSub em rest = false) :
    ∀ w : Nat, tryBetweenGo em rest w = none := by
  have hfo : ∀ n : Nat, firstOcc em (rest.drop n) = none := fun n =>
    firstOcc_none_of_not_contains em _ (containsSub_drop n rest h)
  have hf1 : ∀ n : Nat, firstOccFrom1 em (rest.drop n) = none := by
    intro n
    cases hr : rest.drop n with
    | nil => rfl
    | cons c t =>
      rw [firstOccFrom1]
      have : firstOcc em t = none := by
        have := hfo (n + 1)
        rw [← List.drop_drop, hr, List.drop_succ_cons, List.drop_zero] at this
        exact this
      rw [this]
      rfl
  intro w
  induction w with
  | zero =>
    rw [tryBetweenGo]
    have := hf1 0
    rw [List.drop_zero] at this
    rw [this]
    rfl
  | succ w ih =>
    rw [tryBetweenGo, hf1 (w + 1)]
    exact ih

/-!
### takeWhile / dropWhile / strip facts -/

/-- `dropWhile` is `drop` of the `takeWhile` length. -/
lemma dropWhile_eq_drop_tw (p : Char → Bool) (l : Str) :
    l.dropWhile p = l.drop (l.takeWhile p).length := by
  have h1 : l = l.takeWhile p ++ l.dropWhile p := (List.takeWhile_append_dropWhile p l).symm
  calc l.dropWhile p
      = (l.takeWhile p ++ l.dropWhile p).drop (l.takeWhile p).length := (List.drop_left _ _).symm
    _ = l.drop (l.takeWhile p).length := by rw [← h1]

/-- `takeWhile` over an append when the predicate holds throughout the
first part. -/
lemma takeWhile_append_all (p : Char → Bool) (x y : Str) (h : ∀ c ∈ x, p c = true) :
    (x ++ y).takeWhile p = x ++ y.takeWhile p := by
  rw [List.takeWhile_append, if_pos]
  rw [List.takeWhile_eq_self_iff.mpr h]

/-- `dropWhile` over an append when the predicate holds throughout the
first part. -/
lemma dropWhile_append_all (p : Char → Bool) (x y : Str) (h : ∀ c ∈ x, p c = true) :
    (x ++ y).dropWhile p = y.dropWhile p := by
  rw [List.dropWhile_append, if_pos]
  rw [List.dropWhile_eq_nil_iff.mpr h]
  rfl

/-- `takeWhile` over an append when it stops inside the first part. -/
lemma takeWhile_append_stop (p : Char → Bool) (x y : Str) (h : x.dropWhile p ≠ []) :
    (x ++ y).takeWhile p = x.takeWhile p := by
  rw [List.takeWhile_append, if_neg]
  intro hlen
  apply h
  have hsum : (x.takeWhile p).length + (x.dropWhile p).length = x.length := by
    rw [← List.length_append, List.takeWhile_append_dropWhile]
  rw [hlen] at hsum
  exact List.length_eq_zero.mp (by omega)

/-- `dropWhile` over an append when it stops inside the first part. -/
lemma dropWhile_append_stop (p : Char → Bool) (x y : Str) (h : x.dropWhile p ≠ []) :
    (x ++ y).dropWhile p = x.dropWhile p ++ y := by
  rw [List.dropWhile_append, if_neg]
  simp [h]

/-- Right strip of an empty string. -/
lemma rstrip_nil : rstrip [] = [] := rfl

/-- A string right-strips to empty exactly when it is all whitespace. -/
lemma rstrip_eq_nil_iff (s : Str) : rstrip s = [] ↔ ∀ c ∈ s, isWs c = true := by
  rw [rstrip, List.reverse_eq_nil_iff, List.dropWhile_eq_nil_iff]
  constructor
  · intro h c hc
    exact h c (List.mem_reverse.mpr hc)
  · intro h c hc
    exact h c (List.mem_reverse.mp hc)

/-- A string left-strips to empty exactly when it is all whitespace. -/
lemma lstrip_eq_nil_iff (s : Str) : lstrip s = [] ↔ ∀ c ∈ s, isWs c = true := by
  rw [lstrip, List.dropWhile_eq_nil_iff]

/-- Right strip over an append. -/
lemma rstrip_append (x y : Str) :
    rstrip (x ++ y) = if rstrip y = [] then rstrip x else x ++ rstrip y := by
  rw [rstrip, List.reverse_append, List.dropWhile_append]
  by_cases hy : rstrip y = []
  · rw [if_pos hy]
    have : (y.reverse.dropWhile isWs).isEmpty = true := by
      rw [List.isEmpty_iff]
      rw [rstrip, List.reverse_eq_nil_iff] at hy
      exact hy
    rw [if_pos this]
    rfl
  · rw [if_neg hy]
    have : (y.reverse.dropWhile isWs).isEmpty = false := by
      rw [Bool.eq_false_iff]
      intro hcon
      rw [List.isEmpty_iff] at hcon
      apply hy
      rw [rstrip, hcon]
      rfl
    rw [this]
    simp only [Bool.false_eq_true, if_false]
    rw [List.reverse_append, List.reverse_reverse]
    rfl

/-- Left strip fixes a string with a non-whitespace head. -/
lemma lstrip_cons_nonWs {c : Char} (s : Str) (h : isWs c = false) :
    lstrip (c :: s) = c :: s := by
  rw [lstrip, List.dropWhile_cons, if_neg (by simp [h])]

/-- Right strip of a non-whitespace singleton. -/
lemma rstrip_single_nonWs {c : Char} (h : isWs c = false) : rstrip [c] = [c] := by
  rw [rstrip]
  simp [List.dropWhile_cons, h]

/-- Right strip of a cons cell. -/
lemma rstrip_cons (c : Char) (t : Str) :
    rstrip (c :: t) = if rstrip t = [] then rstrip [c] else c :: rstrip t := by
  have : (c :: t) = [c] ++ t := rfl
  rw [this, rstrip_append]
  by_cases ht : rstrip t = []
  · rw [if_pos ht, if_pos ht]
  · rw [if_neg ht, if_neg ht]
    rfl

/-- Left strip is idempotent. -/
lemma lstrip_idem (s : Str) : lstrip (lstrip s) = lstrip s := by
  rw [lstrip, lstrip, List.dropWhile_idempotent]

/-- Right strip is idempotent. -/
lemma rstrip_idem (s : Str) : rstrip (rstrip s) = rstrip s := by
  rw [rstrip, rstrip, List.reverse_reverse, List.dropWhile_idempotent]

/-- Left and right strips commute. -/
lemma lstrip_rstrip_comm (s : Str) : lstrip (rstrip s) = rstrip (lstrip s) := by
  induction s with
  | nil => rfl
  | cons c t ih =>
    by_cases hc : isWs c = true
    · by_cases ht : rstrip t = []
      · have h1 : rstrip (c :: t) = [] := by
          rw [rstrip_cons, if_pos ht, rstrip_eq_nil_iff]
          intro x hx
          rw [List.mem_singleton.mp hx]
          exact hc
        have hws : ∀ x ∈ t, isWs x = true := (rstrip_eq_nil_iff t).mp ht
        have h2 : lstrip (c :: t) = [] := by
          rw [lstrip_eq_nil_iff]
          intro x hx
          rcases List.mem_cons.mp hx with he | he
          · rw [he]; exact hc
          · exact hws x he
        rw [h1, h2]
        rfl
      · have h1 : rstrip (c :: t) = c :: rstrip t := by rw [rstrip_cons, if_neg ht]
        have h2 : lstrip (c :: t) = lstrip t := by
          rw [lstrip, List.dropWhile_cons, if_pos (by simp [hc])]
          rfl
        have h3 : lstrip (c :: rstrip t) = lstrip (rstrip t) := by
          rw [lstrip, List.dropWhile_cons, if_pos (by simp [hc])]
          rfl
        rw [h1, h2, h3, ih]
    · rw [Bool.not_eq_true] at hc
      rw [lstrip_cons_nonWs t hc]
      by_cases ht : rstrip t = []
      · rw [rstrip_cons, if_pos ht, rstrip_single_nonWs hc, lstrip_cons_nonWs [] hc]
      · rw [rstrip_cons, if_neg ht, lstrip_cons_nonWs _ hc]

/-- Stripping after a left strip is the full strip. -/
lemma pyStrip_lstrip (s : Str) : pyStrip (lstrip s) = pyStrip s := by
  rw [pyStrip, pyStrip, ← lstrip_rstrip_comm, lstrip_idem]

/-- Stripping after a right strip is the full strip. -/
lemma pyStrip_rstrip (s : Str) : pyStrip (rstrip s) = pyStrip s := by
  rw [pyStrip, pyStrip, rstrip_idem]

/-- A string with nonempty strip has a nonempty right strip. -/
lemma rstrip_ne_nil_of_strip {s : Str} (h : pyStrip s ≠ []) : rstrip s ≠ [] := by
  intro hcon
  apply h
  rw [pyStrip, hcon]
  rfl

/-- A string with nonempty strip has a nonempty left strip. -/
lemma lstrip_ne_nil_of_strip {s : Str} (h : pyStrip s ≠ []) : lstrip s ≠ [] := by
  intro hcon
  apply h
  have hws := (lstrip_eq_nil_iff s).mp hcon
  rw [pyStrip, (rstrip_eq_nil_iff s).mpr hws]
  rfl

/-- Stripping a string with a non-whitespace head only strips the right. -/
lemma pyStrip_head_nonWs {c : Char} (s : Str) (h : isWs c = false) :
    pyStrip (c :: s) = rstrip (c :: s) := by
  rw [pyStrip, rstrip_cons]
  by_cases ht : rstrip s = []
  · rw [if_pos ht, rstrip_single_nonWs h, lstrip_cons_nonWs [] h]
  · rw [if_neg ht, lstrip_cons_nonWs _ h]

/-- Characters of the right strip come from the original string. -/
lemma mem_rstrip {c : Char} {s : Str} (h : c ∈ rstrip s) : c ∈ s := by
  rw [rstrip] at h
  rw [List.mem_reverse] at h
  exact List.mem_reverse.mp ((List.dropWhile_sublist isWs).mem h)

/-- Characters of the left strip come from the original string. -/
lemma mem_lstrip {c : Char} {s : Str} (h : c ∈ lstrip s) : c ∈ s := by
  exact (List.dropWhile_sublist isWs).mem h

/-!
### Searches on a rendered block body -/

/-- A character whose lower case heads `medium` or `hard` is not
whitespace. -/
lemma nonWs_of_toLower_mh {c : Char} (h : c.toLower = 'm' ∨ c.toLower = 'h') :
    isWs c = false := by
  by_contra hws
  rw [Bool.not_eq_false] at hws
  have : ((((c = ' ' ∨ c = '\t') ∨ c = '\n') ∨ c = '\x0d') ∨ c = '\x0b') ∨ c = '\x0c' := by
    simpa [isWs] using hws
  rcases this with ((((he | he) | he) | he) | he) | he <;>
    · subst he
      rcases h with h | h <;> exact absurd h (by decide)

/-- Shape of a valid difficulty token: nonempty, non-whitespace head whose
lower case is the token's initial. -/
lemma diffOk_shape {diff : Str} (h : diffOk diff) :
    ∃ d0 dtail, diff = d0 :: dtail ∧ isWs d0 = false ∧
      ((diff.map Char.toLower = "medium".data ∧ d0.toLower = 'm') ∨
       (diff.map Char.toLower = "hard".data ∧ d0.toLower = 'h')) := by
  rcases h with h | h
  · cases diff with
    | nil => exact absurd h (by decide)
    | cons d0 dtail =>
      rw [List.map_cons] at h
      have h0 : d0.toLower = 'm' := by
        have := List.head_eq_of_cons_eq h
        simpa using this
      exact ⟨d0, dtail, rfl, nonWs_of_toLower_mh (Or.inl h0), Or.inl ⟨by rw [List.map_cons, h], h0⟩⟩
  · cases diff with
    | nil => exact absurd h (by decide)
    | cons d0 dtail =>
      rw [List.map_cons] at h
      have h0 : d0.toLower = 'h' := by
        have := List.head_eq_of_cons_eq h
        simpa using this
      exact ⟨d0, dtail, rfl, nonWs_of_toLower_mh (Or.inr h0), Or.inr ⟨by rw [List.map_cons, h], h0⟩⟩

/-- The difficulty search on a rendered block body returns the difficulty
token (the actual matched text, later capitalized). -/
lemma searchDiff_body (num diff quest optSec tail : Str)
    (hnum : numOk num) (hdiff : diffOk diff) :
    searchDiff (bodyCore num diff quest optSec tail) = some diff := by
  have hlit : "]\nDifficulty: ".data = [']', '\n'] ++ "Difficulty: ".data := rfl
  have hsplit : bodyCore num diff quest optSec tail =
      (num ++ [']', '\n']) ++
        ("Difficulty: ".data ++ (diff ++ ("\nQuestion: ".data ++ (quest ++
          ("\nOptions:".data ++ (optSec ++ tail)))))) := by
    rw [bodyCore, hlit]
    simp [List.append_assoc]
  rw [hsplit]
  rw [searchDiff_skip (num ++ [']', '\n']) _ (by
    intro c hc
    rcases List.mem_append.mp hc with h | h
    · exact digit_toLower_ne_d c (hnum c h)
    · rcases List.mem_cons.mp h with he | he
      · rw [he]; decide
      · rw [List.mem_singleton.mp he]; decide)]
  set rest := diff ++ ("\nQuestion: ".data ++ (quest ++ ("\nOptions:".data ++ (optSec ++ tail)))) with hrest
  have hcons : "Difficulty: ".data ++ rest = 'D' :: ("ifficulty: ".data ++ rest) := rfl
  rw [hcons, searchDiff]
  have hci : ciStarts "difficulty:".data ('D' :: ("ifficulty: ".data ++ rest)) = true := by
    have h1 : 'D' :: ("ifficulty: ".data ++ rest) = "Difficulty:".data ++ ([' '] ++ rest) := rfl
    have h2 : "difficulty:".data = "Difficulty:".data.map Char.toLower := by decide
    rw [h1, h2]
    exact ciStarts_self_append _ _
  rw [if_pos hci]
  have hdrop : ('D' :: ("ifficulty: ".data ++ rest)).drop 11 = ' ' :: rest := by
    have h1 : 'D' :: ("ifficulty: ".data ++ rest) = "Difficulty:".data ++ (' ' :: rest) := rfl
    rw [h1, show (11 : Nat) = ("Difficulty:".data).length from rfl, List.drop_left]
  rw [hdrop]
  rcases diffOk_shape hdiff with ⟨d0, dtail, hdiffeq, hd0ws, hcase⟩
  have hdw : (' ' :: rest).dropWhile isWs = rest := by
    rw [List.dropWhile_cons, if_pos (by decide)]
    rw [hrest, hdiffeq, List.cons_append, List.dropWhile_cons, if_neg (by simp [hd0ws])]
  rw [hdw]
  rcases hcase with ⟨hmap, h0⟩ | ⟨hmap, h0⟩
  · have hci2 : ciStarts "medium".data rest = true := by
      rw [hrest, ← hmap]
      exact ciStarts_self_append _ _
    rw [if_pos (by simp [hci2])]
    have hlen : (6 : Nat) = diff.length := by
      have : ("medium".data).length = (diff.map Char.toLower).length := by rw [hmap]
      simpa using this
    rw [hrest, hlen, List.take_left]
  · have hci2 : ciStarts "medium".data rest = false := by
      rw [hrest, hdiffeq, List.cons_append]
      have : "medium".data = 'm' :: "edium".data := rfl
      rw [this]
      exact ciStarts_head_false _ _ (by rw [h0]; decide)
    rw [if_neg (by simp [hci2])]
    have hci3 : ciStarts "hard".data rest = true := by
      rw [hrest, ← hmap]
      exact ciStarts_self_append _ _
    rw [if_pos (by simp [hci3])]
    have hlen : (4 : Nat) = diff.length := by
      have : ("hard".data).length = (diff.map Char.toLower).length := by rw [hmap]
      simpa using this
    rw [hrest, hlen, List.take_left]

/-- The `\s*(.+?)em` matcher when the text after the label is a space, then
the group text (newline-free, not all whitespace), then `em` (which starts
with a newline): the greedy `\s*` swallows the space and the group's
leading whitespace, and the lazy group stops at `em`. -/
lemma tryBetween_group (em' q z : Str)
    (hqn : ∀ c ∈ q, c ≠ '\n') (hqs : lstrip q ≠ []) :
    tryBetween ('\n' :: em') (' ' :: (q ++ (('\n' :: em') ++ z))) = some (lstrip q) := by
  set r := ('\n' :: em') ++ z with hr
  have htw : (' ' :: (q ++ r)).takeWhile isWs = ' ' :: q.takeWhile isWs := by
    rw [List.takeWhile_cons, if_pos (by decide)]
    rw [takeWhile_append_stop isWs q r hqs]
  have hwsr : wsRunLen (' ' :: (q ++ r)) = (q.takeWhile isWs).length + 1 := by
    rw [wsRunLen, htw, List.length_cons]
  rw [tryBetween, hwsr, tryBetweenGo]
  have hdrop : (' ' :: (q ++ r)).drop ((q.takeWhile isWs).length + 1) = q.dropWhile isWs ++ r := by
    rw [List.drop_succ_cons]
    calc (q ++ r).drop (q.takeWhile isWs).length
        = ((q.takeWhile isWs ++ q.dropWhile isWs) ++ r).drop (q.takeWhile isWs).length := by
          rw [List.takeWhile_append_dropWhile]
      _ = (q.takeWhile isWs ++ (q.dropWhile isWs ++ r)).drop (q.takeWhile isWs).length := by
          rw [List.append_assoc]
      _ = q.dropWhile isWs ++ r := List.drop_left _ _
  rw [hdrop]
  cases hg : lstrip q with
  | nil => exact absurd hg hqs
  | cons g0 gt =>
  have hgq : q.dropWhile isWs = g0 :: gt := hg
  rw [hgq, List.cons_append, firstOccFrom1]
  have hocc : firstOcc ('\n' :: em') (gt ++ r) = some gt.length := by
    rw [firstOcc_skip '\n' em' gt r (fun c hc => by
      apply hqn
      apply mem_lstrip
      rw [hg]
      exact List.mem_cons_of_mem g0 hc)]
    rw [hr, firstOcc_self]
    simp
  rw [hocc]
  simp only [Option.map_some']
  have : gt.length + 1 = (g0 :: gt).length := by rw [List.length_cons]
  rw [this, ← List.cons_append, List.take_left]

/-- A labelled search at the position of its label: attempt the lazy-group
match; on failure keep scanning after the label's first character. -/
lemma searchPat_hit (l0 : Char) (lrest em rest' : Str) :
    searchPat (l0 :: lrest) em ((l0 :: lrest) ++ rest') =
      match tryBetween em rest' with
      | some g => some g
      | none => searchPat (l0 :: lrest) em (lrest ++ rest') := by
  rw [List.cons_append, searchPat,
    if_pos (by rw [← List.cons_append]; exact pfx_self_append _ _)]
  have hdrop : (l0 :: (lrest ++ rest')).drop (l0 :: lrest).length = rest' := by
    rw [← List.cons_append, List.drop_left]
  rw [hdrop]

/-- The question search on a rendered block body returns the question text
with leading whitespace already consumed by `\s*`. -/
lemma searchQuestion_body (num diff quest optSec tail : Str)
    (hnum : numOk num) (hdiff : diffOk diff)
    (hqc : ∀ c ∈ quest, fieldChar c = true) (hqs : lstrip quest ≠ []) :
    searchPat "Question:".data "\nOptions:".data (bodyCore num diff quest optSec tail) =
      some (lstrip quest) := by
  have hsplit : bodyCore num diff quest optSec tail =
      (num ++ ("]\nDifficulty: ".data ++ (diff ++ ['\n']))) ++
        ("Question:".data ++ (' ' :: (quest ++ ("\nOptions:".data ++ (optSec ++ tail))))) := by
    rw [bodyCore]
    have h1 : "\nQuestion: ".data = ['\n'] ++ ("Question:".data ++ [' ']) := rfl
    rw [h1]
    simp [List.append_assoc]
  rw [hsplit]
  have hq : "Question:".data = 'Q' :: "uestion:".data := rfl
  rw [hq]
  rw [searchPat_skip 'Q' _ _ _ _ (by
    intro c hc
    rcases List.mem_append.mp hc with h | h
    · exact ne_of_pred_false (hnum c h) (by decide)
    · rcases List.mem_append.mp h with h' | h'
      · have hd : ∀ x ∈ "]\nDifficulty: ".data, x ≠ 'Q' := by decide
        exact hd c h'
      · rcases List.mem_append.mp h' with h2 | h2
        · exact (diffOk_ne hdiff h2).1
        · rw [List.mem_singleton.mp h2]
          decide)]
  rw [searchPat_hit]
  have hlo : "\nOptions:".data = '\n' :: "Options:".data := rfl
  rw [hlo, tryBetween_group "Options:".data quest (optSec ++ tail)
    (fun c hc => (fieldChar_ne (hqc c hc)).2.2.2.1) hqs]

/-- Unfolding of the option-line rendering. -/
lemma optLines_cons (p : Char × Str) (ls : List (Char × Str)) :
    optLines (p :: ls) = optLine p.1 p.2 ++ optLines ls := by
  rw [optLines, List.map_cons, List.flatten_cons, optLines]

/-- Every character of a rendered option section is a newline, parenthesis,
space, an upper-case letter A–E, or a field character. -/
lemma optLines_chars {ls : List (Char × Str)} (h : ∀ p ∈ ls, lineOk p) :
    ∀ c ∈ optLines ls,
      c = '\n' ∨ c = ')' ∨ c = ' ' ∨ ('A' ≤ c ∧ c ≤ 'E') ∨ fieldChar c = true := by
  induction ls with
  | nil => intro c hc; exact absurd hc (List.not_mem_nil c)
  | cons p t ih =>
    intro c hc
    rw [optLines_cons] at hc
    rcases List.mem_append.mp hc with h' | h'
    · rw [optLine] at h'
      rcases List.mem_cons.mp h' with he | h'
      · exact Or.inl he
      rcases List.mem_cons.mp h' with he | h'
      · exact Or.inr (Or.inr (Or.inr (Or.inl (by rw [he]; exact (h p (List.mem_cons_self p t)).1))))
      rcases List.mem_cons.mp h' with he | h'
      · exact Or.inr (Or.inl he)
      rcases List.mem_cons.mp h' with he | h'
      · exact Or.inr (Or.inr (Or.inl he))
      · exact Or.inr (Or.inr (Or.inr (Or.inr ((h p (List.mem_cons_self p t)).2.1 c h'))))
    · exact ih (fun p' hp' => h p' (List.mem_cons_of_mem p hp')) c h'

/-- The pattern `\nCorrect:` never matches at the newline opening an option
line. -/
lemma em_pfx_line_false (c : Char) (s : Str) :
    ("\nCorrect:".data).isPrefixOf ('\n' :: c :: ')' :: s) = false := by
  have h1 : "\nCorrect:".data = '\n' :: 'C' :: 'o' :: "rrect:".data := rfl
  rw [h1, pfx_cons]
  by_cases hc : c = 'C'
  · subst hc
    rw [pfx_cons]
    exact pfx_head_false _ _ (by decide)
  · exact pfx_head_false _ _ (fun he => hc he.symm)

/-- The pattern `Correct:` never matches at a letter followed by `)`. -/
lemma correct_pfx_paren_false (c : Char) (s : Str) :
    ("Correct:".data).isPrefixOf (c :: ')' :: s) = false := by
  have h1 : "Correct:".data = 'C' :: 'o' :: "rrect:".data := rfl
  rw [h1]
  by_cases hc : c = 'C'
  · subst hc
    rw [pfx_cons]
    exact pfx_head_false _ _ (by decide)
  · exact pfx_head_false _ _ (fun he => hc he.symm)

/-- One failing step of the occurrence test. -/
lemma containsSub_cons_false {pat : Str} {c : Char} {s : Str}
    (h : pat.isPrefixOf (c :: s) = false) :
    containsSub pat (c :: s) = containsSub pat s := by
  rw [containsSub, h, Bool.false_or]

/-- The first occurrence of `\nCorrect:` after a rendered option section is
right at its end. -/
lemma firstOcc_correct_lines :
    ∀ (ls : List (Char × Str)), (∀ p ∈ ls, lineOk p) → ∀ z : Str,
      firstOcc "\nCorrect:".data (optLines ls ++ ("\nCorrect:".data ++ z)) =
        some (optLines ls).length := by
  intro ls
  induction ls with
  | nil =>
    intro _ z
    rw [optLines, List.map_nil, List.flatten_nil, List.nil_append]
    have h1 : "\nCorrect:".data = '\n' :: "Correct:".data := rfl
    rw [h1, firstOcc_self]
    rfl
  | cons p t ih =>
    intro h z
    have hok := h p (List.mem_cons_self p t)
    rw [optLines_cons]
    simp only [optLine]
    have hassoc : ('\n' :: p.1 :: ')' :: ' ' :: p.2) ++ optLines t ++ ("\nCorrect:".data ++ z) =
        '\n' :: p.1 :: ')' :: ' ' :: (p.2 ++ (optLines t ++ ("\nCorrect:".data ++ z))) := by
      simp [List.append_assoc]
    rw [hassoc]
    rw [firstOcc_cons_false _ _ _ (em_pfx_line_false p.1 _)]
    have hnl : "\nCorrect:".data = '\n' :: "Correct:".data := rfl
    have hc1 : p.1 ≠ '\n' := (ge_A_facts hok.1.1).2
    rw [hnl, firstOcc_cons_false _ _ _ (pfx_head_false _ _ (fun he => hc1 he.symm)),
      firstOcc_cons_false _ _ _ (pfx_head_false _ _ (by decide)),
      firstOcc_cons_false _ _ _ (pfx_head_false _ _ (by decide))]
    rw [firstOcc_skip '\n' _ p.2 _ (fun c' hc' => (fieldChar_ne (hok.2.1 c' hc')).2.2.2.1)]
    rw [← hnl, ih (fun p' hp' => h p' (List.mem_cons_of_mem p hp')) z]
    simp only [Option.map_some', Option.some.injEq, List.length_cons, List.length_append,
      optLine]
    omega

/-- A rendered option section closed by a bare newline contains no
occurrence of `\nCorrect:`. -/
lemma containsSub_correct_lines :
    ∀ (ls : List (Char × Str)), (∀ p ∈ ls, lineOk p) →
      containsSub "\nCorrect:".data (optLines ls ++ ['\n']) = false := by
  intro ls
  induction ls with
  | nil =>
    intro _
    rw [optLines, List.map_nil, List.flatten_nil, List.nil_append]
    have h1 : ("\nCorrect:".data).isPrefixOf ['\n'] = false := by
      have h2 : "\nCorrect:".data = '\n' :: "Correct:".data := rfl
      rw [h2, pfx_cons]
      have h3 : "Correct:".data = 'C' :: "orrect:".data := rfl
      rw [h3]
      rfl
    rw [containsSub, h1]
    rfl
  | cons p t ih =>
    intro h
    have hok := h p (List.mem_cons_self p t)
    rw [optLines_cons]
    simp only [optLine]
    have hassoc : ('\n' :: p.1 :: ')' :: ' ' :: p.2) ++ optLines t ++ ['\n'] =
        '\n' :: p.1 :: ')' :: ' ' :: (p.2 ++ (optLines t ++ ['\n'])) := by
      simp [List.append_assoc]
    rw [hassoc]
    rw [containsSub_cons_false (em_pfx_line_false p.1 _)]
    have hnl : "\nCorrect:".data = '\n' :: "Correct:".data := rfl
    have hc1 : p.1 ≠ '\n' := (ge_A_facts hok.1.1).2
    rw [hnl, containsSub_cons_false (pfx_head_false _ _ (fun he => hc1 he.symm)),
      containsSub_cons_false (pfx_head_false _ _ (by decide)),
      containsSub_cons_false (pfx_head_false _ _ (by decide)),
      containsSub_skip '\n' _ p.2 _ (fun c' hc' => (fieldChar_ne (hok.2.1 c' hc')).2.2.2.1),
      ← hnl]
    exact ih (fun p' hp' => h p' (List.mem_cons_of_mem p hp'))

/-- The `\s*(.+?)\nCorrect:` matcher on an option section followed by the
`Correct:` line: `\s*` takes the leading newline and the lazy group is the
whole option section up to the closing newline. -/
lemma tryBetween_lines (p : Char × Str) (ls : List (Char × Str)) (z : Str)
    (hok : lineOk p) (hls : ∀ p' ∈ ls, lineOk p') :
    tryBetween "\nCorrect:".data (optLines (p :: ls) ++ ("\nCorrect:".data ++ z)) =
      some (p.1 :: ')' :: ' ' :: (p.2 ++ optLines ls)) := by
  rw [optLines_cons]
  simp only [optLine]
  have hassoc : ('\n' :: p.1 :: ')' :: ' ' :: p.2) ++ optLines ls ++ ("\nCorrect:".data ++ z) =
      '\n' :: p.1 :: ')' :: ' ' :: (p.2 ++ (optLines ls ++ ("\nCorrect:".data ++ z))) := by
    simp [List.append_assoc]
  rw [hassoc]
  have hws0 : isWs p.1 = false := (ge_A_facts hok.1.1).1
  have htw : ('\n' :: p.1 :: ')' :: ' ' :: (p.2 ++ (optLines ls ++ ("\nCorrect:".data ++ z)))).takeWhile isWs = ['\n'] := by
    rw [List.takeWhile_cons, if_pos (by decide), List.takeWhile_cons, if_neg (by simp [hws0])]
  rw [tryBetween, wsRunLen, htw]
  have h1 : (['\n'] : Str).length = 0 + 1 := rfl
  rw [h1, tryBetweenGo, List.drop_succ_cons, List.drop_zero, firstOccFrom1]
  have hc1 : p.1 ≠ '\n' := (ge_A_facts hok.1.1).2
  have hnl : "\nCorrect:".data = '\n' :: "Correct:".data := rfl
  rw [hnl, firstOcc_cons_false _ _ _ (pfx_head_false _ _ (by decide)),
    firstOcc_cons_false _ _ _ (pfx_head_false _ _ (by decide))]
  rw [firstOcc_skip '\n' _ p.2 _ (fun c' hc' => (fieldChar_ne (hok.2.1 c' hc')).2.2.2.1)]
  rw [← hnl, firstOcc_correct_lines ls hls z]
  simp only [Option.map_some']
  have hj : (optLines ls).length + p.2.length + 1 + 1 + 1 =
      (p.1 :: ')' :: ' ' :: (p.2 ++ optLines ls)).length := by
    simp only [List.length_cons, List.length_append]
    omega
  rw [Option.some.injEq]
  have hsplit2 : p.1 :: ')' :: ' ' :: (p.2 ++ (optLines ls ++ ("\nCorrect:".data ++ z))) =
      (p.1 :: ')' :: ' ' :: (p.2 ++ optLines ls)) ++ ("\nCorrect:".data ++ z) := by
    simp [List.append_assoc]
  rw [hj, hsplit2, List.take_left]

/-- One failing step of the answer search. -/
lemma searchCorrect_cons_false {c : Char} {s : Str}
    (h : ("Correct:".data).isPrefixOf (c :: s) = false) :
    searchCorrect (c :: s) = searchCorrect s := by
  rw [searchCorrect, if_neg (by simp [h])]

/-- The answer search passes over a rendered option section (the option
letters, even `C)`, cannot start a `Correct:` match because of the
following parenthesis). -/
lemma searchCorrect_skip_lines :
    ∀ (ls : List (Char × Str)), (∀ p ∈ ls, lineOk p) → ∀ s : Str,
      searchCorrect (optLines ls ++ s) = searchCorrect s := by
  intro ls
  induction ls with
  | nil => intro _ s; rfl
  | cons p t ih =>
    intro h s
    have hok := h p (List.mem_cons_self p t)
    rw [optLines_cons]
    simp only [optLine]
    have hassoc : ('\n' :: p.1 :: ')' :: ' ' :: p.2) ++ optLines t ++ s =
        '\n' :: p.1 :: ')' :: ' ' :: (p.2 ++ (optLines t ++ s)) := by
      simp [List.append_assoc]
    rw [hassoc]
    have hcr : "Correct:".data = 'C' :: "orrect:".data := rfl
    rw [searchCorrect_cons_false (by rw [hcr]; exact pfx_head_false _ _ (by decide)),
      searchCorrect_cons_false (correct_pfx_paren_false p.1 _),
      searchCorrect_cons_false (by rw [hcr]; exact pfx_head_false _ _ (by decide)),
      searchCorrect_cons_false (by rw [hcr]; exact pfx_head_false _ _ (by decide)),
      searchCorrect_skip p.2 _ (fun c' hc' => (fieldChar_ne (hok.2.1 c' hc')).2.2.1)]
    exact ih (fun p' hp' => h p' (List.mem_cons_of_mem p hp')) s

/-- The answer search on a rendered block body returns the answer letter. -/
lemma searchCorrect_body (num diff quest : Str) (ls : List (Char × Str)) (a : Char)
    (hnum : numOk num) (hdiff : diffOk diff)
    (hqc : ∀ c ∈ quest, fieldChar c = true)
    (hls : ∀ p ∈ ls, lineOk p) (ha : ansOk a) :
    searchCorrect (bodyCore num diff quest (optLines ls) (correctTail a)) = some a := by
  have hsplit : bodyCore num diff quest (optLines ls) (correctTail a) =
      (num ++ ("]\nDifficulty: ".data ++ (diff ++ ("\nQuestion: ".data ++
        (quest ++ "\nOptions:".data))))) ++
        (optLines ls ++ (['\n'] ++ ("Correct:".data ++ (' ' :: a :: ['\n'])))) := by
    rw [bodyCore, correctTail]
    have h1 : "\nCorrect: ".data = ['\n'] ++ ("Correct:".data ++ [' ']) := rfl
    rw [h1]
    simp [List.append_assoc]
  rw [hsplit]
  rw [searchCorrect_skip _ _ (by
    intro c hc
    rcases List.mem_append.mp hc with h | h
    · exact ne_of_pred_false (hnum c h) (by decide)
    · rcases List.mem_append.mp h with h' | h'
      · have hd : ∀ x ∈ "]\nDifficulty: ".data, x ≠ 'C' := by decide
        exact hd c h'
      rcases List.mem_append.mp h' with h2 | h2
      · exact (diffOk_ne hdiff h2).2.2.1
      rcases List.mem_append.mp h2 with h3 | h3
      · have hd : ∀ x ∈ "\nQuestion: ".data, x ≠ 'C' := by decide
        exact hd c h3
      rcases List.mem_append.mp h3 with h4 | h4
      · exact (fieldChar_ne (hqc c h4)).2.2.1
      · have hd : ∀ x ∈ "\nOptions:".data, x ≠ 'C' := by decide
        exact hd c h4)]
  rw [searchCorrect_skip_lines ls hls]
  have hcr : "Correct:".data = 'C' :: "orrect:".data := rfl
  rw [List.cons_append, searchCorrect_cons_false (by rw [hcr]; exact pfx_head_false _ _ (by decide))]
  rw [List.nil_append]
  have hcons : "Correct:".data ++ (' ' :: a :: ['\n']) = 'C' :: ("orrect:".data ++ (' ' :: a :: ['\n'])) := rfl
  rw [hcons, searchCorrect, if_pos (by rw [← hcons]; exact pfx_self_append _ _)]
  have hdrop : ('C' :: ("orrect:".data ++ (' ' :: a :: ['\n']))).drop 8 = ' ' :: a :: ['\n'] := by
    rw [← hcons, show (8 : Nat) = ("Correct:".data).length from rfl, List.drop_left]
  rw [hdrop]
  have hfacts := ansOk_facts ha
  have hdw : (' ' :: a :: ['\n']).dropWhile isWs = a :: ['\n'] := by
    rw [List.dropWhile_cons, if_pos (by decide), List.dropWhile_cons,
      if_neg (by simp [hfacts.2.2])]
  rw [hdw]
  dsimp only
  rw [if_pos hfacts.1]

/-- The options search on a rendered block body with the `Correct:` line
present returns the raw options section (without its leading newline). -/
lemma searchOptions_body (num diff quest : Str) (p : Char × Str) (ls : List (Char × Str)) (a : Char)
    (hnum : numOk num) (hdiff : diffOk diff)
    (hqc : ∀ c ∈ quest, fieldChar c = true)
    (hok : lineOk p) (hls : ∀ p' ∈ ls, lineOk p') :
    searchPat "Options:".data "\nCorrect:".data
      (bodyCore num diff quest (optLines (p :: ls)) (correctTail a)) =
      some (p.1 :: ')' :: ' ' :: (p.2 ++ optLines ls)) := by
  have hsplit : bodyCore num diff quest (optLines (p :: ls)) (correctTail a) =
      (num ++ ("]\nDifficulty: ".data ++ (diff ++ ("\nQuestion: ".data ++
        (quest ++ ['\n']))))) ++
        ("Options:".data ++ (optLines (p :: ls) ++ ("\nCorrect:".data ++ (' ' :: a :: ['\n'])))) := by
    rw [bodyCore, correctTail]
    have h1 : "\nOptions:".data = ['\n'] ++ "Options:".data := rfl
    have h2 : "\nCorrect: ".data = "\nCorrect:".data ++ [' '] := rfl
    rw [h1, h2]
    simp [List.append_assoc]
  rw [hsplit]
  have hol : "Options:".data = 'O' :: "ptions:".data := rfl
  rw [hol]
  rw [searchPat_skip 'O' _ _ _ _ (by
    intro c hc
    rcases List.mem_append.mp hc with h | h
    · exact ne_of_pred_false (hnum c h) (by decide)
    · rcases List.mem_append.mp h with h' | h'
      · have hd : ∀ x ∈ "]\nDifficulty: ".data, x ≠ 'O' := by decide
        exact hd c h'
      rcases List.mem_append.mp h' with h2 | h2
      · exact (diffOk_ne hdiff h2).2.1
      rcases List.mem_append.mp h2 with h3 | h3
      · have hd : ∀ x ∈ "\nQuestion: ".data, x ≠ 'O' := by decide
        exact hd c h3
      rcases List.mem_append.mp h3 with h4 | h4
      · exact (fieldChar_ne (hqc c h4)).2.1
      · rw [List.mem_singleton.mp h4]
        decide)]
  rw [searchPat_hit, ← hol, tryBetween_lines p ls _ hok hls]

/-- The options search fails on a rendered block body whose `Correct:` line
is missing: the lazy-group match finds no `\nCorrect:` anywhere, and no
other `Options:` label exists. -/
lemma searchOptions_body_none (num diff quest : Str) (ls : List (Char × Str))
    (hnum : numOk num) (hdiff : diffOk diff)
    (hqc : ∀ c ∈ quest, fieldChar c = true)
    (hls : ∀ p ∈ ls, lineOk p) :
    searchPat "Options:".data "\nCorrect:".data
      (bodyCore num diff quest (optLines ls) ['\n']) = none := by
  have hsplit : bodyCore num diff quest (optLines ls) ['\n'] =
      (num ++ ("]\nDifficulty: ".data ++ (diff ++ ("\nQuestion: ".data ++
        (quest ++ ['\n']))))) ++
        ("Options:".data ++ (optLines ls ++ ['\n'])) := by
    rw [bodyCore]
    have h1 : "\nOptions:".data = ['\n'] ++ "Options:".data := rfl
    rw [h1]
    simp [List.append_assoc]
  rw [hsplit]
  have hol : "Options:".data = 'O' :: "ptions:".data := rfl
  rw [hol]
  rw [searchPat_skip 'O' _ _ _ _ (by
    intro c hc
    rcases List.mem_append.mp hc with h | h
    · exact ne_of_pred_false (hnum c h) (by decide)
    · rcases List.mem_append.mp h with h' | h'
      · have hd : ∀ x ∈ "]\nDifficulty: ".data, x ≠ 'O' := by decide
        exact hd c h'
      rcases List.mem_append.mp h' with h2 | h2
      · exact (diffOk_ne hdiff h2).2.1
      rcases List.mem_append.mp h2 with h3 | h3
      · have hd : ∀ x ∈ "\nQuestion: ".data, x ≠ 'O' := by decide
        exact hd c h3
      rcases List.mem_append.mp h3 with h4 | h4
      · exact (fieldChar_ne (hqc c h4)).2.1
      · rw [List.mem_singleton.mp h4]
        decide)]
  rw [searchPat_hit]
  have hnone : tryBetween "\nCorrect:".data (optLines ls ++ ['\n']) = none := by
    rw [tryBetween]
    exact tryBetweenGo_none _ _ (containsSub_correct_lines ls hls) _
  rw [hnone]
  exact searchPat_none 'O' _ _ _ (by
    intro c hc
    rcases List.mem_append.mp hc with h | h
    · have hd : ∀ x ∈ "ptions:".data, x ≠ 'O' := by decide
      exact hd c h
    · rcases List.mem_append.mp h with h' | h'
      · rcases optLines_chars hls c h' with he | he | he | he | he
        · rw [he]; decide
        · rw [he]; decide
        · rw [he]; decide
        · intro hcon
          rw [hcon] at he
          exact absurd he.2 (by decide)
        · exact (fieldChar_ne he).2.1
      · rw [List.mem_singleton.mp h']
        decide)

/-!
### The findall scan on a rendered option section -/

/-- The findall scan of an empty string at any fuel. -/
lemma findallGo_nil_any (f : Nat) : findallGo f [] = [] := by
  cases f with
  | zero => rfl
  | succ f => rfl

/-- One scanning step over a character that is not an option letter. -/
lemma findallGo_step_notAD (f : Nat) (c : Char) (rest : Str)
    (h : ¬('A' ≤ c ∧ c ≤ 'D')) :
    findallGo (f + 1) (c :: rest) = findallGo f rest := by
  cases rest with
  | nil =>
    rw [findallGo_one, findallGo_nil_any]
  | cons c2 r2 =>
    rw [findallGo_cons, if_neg h]

/-- The findall scan passes over a string free of option letters, consuming
its length in fuel. -/
lemma findallGo_skip_x :
    ∀ (x : Str) (f : Nat) (s : Str), (∀ c ∈ x, ¬('A' ≤ c ∧ c ≤ 'D')) →
      findallGo (f + x.length) (x ++ s) = findallGo f s := by
  intro x
  induction x with
  | nil => intro f s _; rfl
  | cons c cs ih =>
    intro f s h
    rw [List.cons_append, List.length_cons, ← Nat.add_assoc,
      findallGo_step_notAD _ _ _ (h c (List.mem_cons_self c cs))]
    exact ih f s (fun c' hc' => h c' (List.mem_cons_of_mem c hc'))

/-- The `\s*(.+)` matcher when the rest of the line is nonempty: no
backtracking happens and the group is the rest of the line. -/
lemma tryOptGoBT_of_ne (wsRev v : Str) (h : v.takeWhile (fun c => c != '\n') ≠ []) :
    tryOptGoBT wsRev v =
      some (v.takeWhile (fun c => c != '\n'), v.dropWhile (fun c => c != '\n')) := by
  cases wsRev with
  | nil => rw [tryOptGoBT, if_neg h]
  | cons w ws => rw [tryOptGoBT, if_neg h]

/-- Length of a rendered option section. -/
lemma optLines_length_cons (p : Char × Str) (t : List (Char × Str)) :
    (optLines (p :: t)).length = 4 + p.2.length + (optLines t).length := by
  rw [optLines_cons]
  simp only [optLine, List.length_append, List.length_cons]
  omega

/-- The findall scan on a rendered option section (with or without the
leading newline) yields exactly the A–D lines, keys in order, each group
being the rest of its line after `\s*` took the leading whitespace. -/
lemma findallGo_lines :
    ∀ (ls : List (Char × Str)), (∀ p ∈ ls, lineOk p) →
      (∀ f : Nat, (optLines ls).length ≤ f + 1 →
        findallGo f ((optLines ls).drop 1) =
          ls.filterMap (fun p => if 'A' ≤ p.1 ∧ p.1 ≤ 'D' then some (p.1, lstrip p.2) else none)) ∧
      (∀ f : Nat, (optLines ls).length ≤ f →
        findallGo f (optLines ls) =
          ls.filterMap (fun p => if 'A' ≤ p.1 ∧ p.1 ≤ 'D' then some (p.1, lstrip p.2) else none)) := by
  intro ls
  induction ls with
  | nil =>
    intro _
    refine ⟨fun f _ => ?_, fun f _ => ?_⟩
    · rw [show optLines [] = [] from rfl]
      rw [List.drop_nil, findallGo_nil_any, List.filterMap_nil]
    · rw [show optLines [] = [] from rfl, findallGo_nil_any, List.filterMap_nil]
  | cons p t ih =>
    have hlen := optLines_length_cons p t
    have hshape : optLines (p :: t) = '\n' :: (p.1 :: ')' :: ' ' :: (p.2 ++ optLines t)) := by
      rw [optLines_cons]
      simp [optLine]
    have hmain : ∀ hok : ∀ p' ∈ p :: t, lineOk p',
        ∀ f : Nat, (optLines (p :: t)).length ≤ f + 1 →
        findallGo f ((optLines (p :: t)).drop 1) =
          (p :: t).filterMap (fun p => if 'A' ≤ p.1 ∧ p.1 ≤ 'D' then some (p.1, lstrip p.2) else none) := by
      intro hok f hf
      have hokp := hok p (List.mem_cons_self p t)
      have hokt : ∀ p' ∈ t, lineOk p' := fun p' hp' => hok p' (List.mem_cons_of_mem p hp')
      have hlstrip : lstrip p.2 ≠ [] := lstrip_ne_nil_of_strip hokp.2.2
      have hnonl : ∀ c ∈ lstrip p.2, (c != '\n') = true := by
        intro c hc
        simp only [bne_iff_ne, ne_eq]
        exact (fieldChar_ne (hokp.2.1 c (mem_lstrip hc))).2.2.2.1
      rw [hshape, List.drop_succ_cons, List.drop_zero]
      -- the text after the leading newline
      have hfuel4 : 4 + p.2.length + (optLines t).length ≤ f + 1 := by
        rw [← hlen]; exact hf
      -- group/remainder computation shared by both letter cases
      have htw2 : (' ' :: (p.2 ++ optLines t)).takeWhile isWs = ' ' :: p.2.takeWhile isWs := by
        rw [List.takeWhile_cons, if_pos (by decide), takeWhile_append_stop isWs p.2 _ hlstrip]
      have hdw2 : (' ' :: (p.2 ++ optLines t)).dropWhile isWs = lstrip p.2 ++ optLines t := by
        rw [List.dropWhile_cons, if_pos (by decide), dropWhile_append_stop isWs p.2 _ hlstrip]
        rfl
      have hgroup : (lstrip p.2 ++ optLines t).takeWhile (fun c => c != '\n') = lstrip p.2 := by
        cases t with
        | nil =>
          rw [show optLines [] = [] from rfl, List.append_nil]
          exact List.takeWhile_eq_self_iff.mpr hnonl
        | cons q t' =>
          rw [takeWhile_append_all _ _ _ hnonl]
          rw [optLines_cons]
          simp only [optLine, List.cons_append]
          rw [List.takeWhile_cons, if_neg (by decide), List.append_nil]
      have hrem : (lstrip p.2 ++ optLines t).dropWhile (fun c => c != '\n') = optLines t := by
        cases t with
        | nil =>
          rw [show optLines [] = [] from rfl, List.append_nil]
          rw [List.dropWhile_eq_nil_iff.mpr hnonl]
        | cons q t' =>
          rw [dropWhile_append_all _ _ _ hnonl]
          rw [optLines_cons]
          simp only [optLine, List.cons_append]
          rw [List.dropWhile_cons, if_neg (by decide)]
      -- tail: the scan over the remaining lines
      have htail : ∀ f' : Nat, (optLines t).length ≤ f' →
          findallGo f' (optLines t) =
            t.filterMap (fun p => if 'A' ≤ p.1 ∧ p.1 ≤ 'D' then some (p.1, lstrip p.2) else none) :=
        (ih hokt).2
      by_cases hAD : 'A' ≤ p.1 ∧ p.1 ≤ 'D'
      · obtain ⟨f', rfl⟩ : ∃ f', f = f' + 1 := by
          rcases f with _ | f'
          · exfalso; omega
          · exact ⟨f', rfl⟩
        rw [findallGo_cons, if_pos hAD, if_pos rfl]
        rw [htw2, hdw2, tryOptGoBT_of_ne _ _ (by rw [hgroup]; exact hlstrip)]
        rw [hgroup, hrem]
        dsimp only
        rw [htail f' (by omega)]
        rw [List.filterMap_cons_some (by rw [if_pos hAD])]
      · obtain ⟨f', rfl⟩ : ∃ f', f = f' + 1 := by
          rcases f with _ | f'
          · exfalso; omega
          · exact ⟨f', rfl⟩
        rw [findallGo_cons, if_neg hAD]
        have hx : ∀ c ∈ ')' :: ' ' :: p.2, ¬('A' ≤ c ∧ c ≤ 'D') := by
          intro c hc
          rcases List.mem_cons.mp hc with he | hc
          · rw [he]; decide
          rcases List.mem_cons.mp hc with he | hc
          · rw [he]; decide
          · exact fieldChar_not_AD (hokp.2.1 c hc)
        obtain ⟨f'', hf''⟩ : ∃ f'', f' = f'' + (')' :: ' ' :: p.2).length := by
          refine ⟨f' - (')' :: ' ' :: p.2).length, ?_⟩
          simp only [List.length_cons]
          omega
        rw [hf'']
        have hxapp : ')' :: ' ' :: (p.2 ++ optLines t) = (')' :: ' ' :: p.2) ++ optLines t := by
          simp
        rw [hxapp, findallGo_skip_x (')' :: ' ' :: p.2) f'' (optLines t) hx]
        rw [htail f'' (by simp only [List.length_cons] at hf'' ⊢; omega)]
        rw [List.filterMap_cons_none (by rw [if_neg hAD])]
    refine fun hok => ⟨hmain hok, ?_⟩
    · intro f hf
      obtain ⟨f', rfl⟩ : ∃ f', f = f' + 1 := by
        rcases f with _ | f'
        · exfalso
          rw [hlen] at hf
          omega
        · exact ⟨f', rfl⟩
      rw [hshape, findallGo_step_notAD _ _ _ (by decide)]
      have hdrop1 : (optLines (p :: t)).drop 1 = p.1 :: ')' :: ' ' :: (p.2 ++ optLines t) := by
        rw [hshape, List.drop_succ_cons, List.drop_zero]
      rw [← hdrop1]
      exact hmain hok f' hf

/-- Stripping is idempotent. -/
lemma pyStrip_idem (s : Str) : pyStrip (pyStrip s) = pyStrip s := by
  calc pyStrip (pyStrip s) = pyStrip (lstrip (rstrip s)) := rfl
    _ = pyStrip (rstrip s) := pyStrip_lstrip _
    _ = pyStrip s := pyStrip_rstrip _

/-- `rstripLast` keeps the option letters. -/
lemma rstripLast_fst : ∀ ls : List (Char × Str), (rstripLast ls).map Prod.fst = ls.map Prod.fst := by
  intro ls
  match ls with
  | [] => rfl
  | [p] => rfl
  | p :: q :: t =>
    rw [rstripLast, List.map_cons, List.map_cons, rstripLast_fst (q :: t)]

/-- `rstripLast` keeps line validity. -/
lemma rstripLast_ok : ∀ ls : List (Char × Str), (∀ p ∈ ls, lineOk p) →
    ∀ p ∈ rstripLast ls, lineOk p := by
  intro ls
  match ls with
  | [] => intro h p hp; exact absurd hp (List.not_mem_nil p)
  | [p0] =>
    intro h p hp
    rw [rstripLast] at hp
    rw [List.mem_singleton.mp hp]
    have h0 := h p0 (List.mem_cons_self p0 [])
    refine ⟨h0.1, fun c hc => h0.2.1 c (mem_rstrip hc), ?_⟩
    rw [pyStrip_rstrip]
    exact h0.2.2
  | p0 :: q :: t =>
    intro h p hp
    rw [rstripLast] at hp
    rcases List.mem_cons.mp hp with he | hp'
    · rw [he]
      exact h p0 (List.mem_cons_self p0 _)
    · exact rstripLast_ok (q :: t) (fun p' hp'' => h p' (List.mem_cons_of_mem p0 hp'')) p hp'

/-- Right-stripping a rendered option section (without its leading newline)
right-strips the last line's text. -/
lemma rstrip_linesA : ∀ ls : List (Char × Str), ls ≠ [] → (∀ p ∈ ls, lineOk p) →
    rstrip ((optLines ls).drop 1) = (optLines (rstripLast ls)).drop 1 := by
  intro ls
  match ls with
  | [] => intro h _; exact absurd rfl h
  | [p] =>
    intro _ hok
    have h0 := hok p (List.mem_cons_self p [])
    have hshape : (optLines [p]).drop 1 = [p.1, ')', ' '] ++ p.2 := by
      rw [optLines_cons, show optLines [] = [] from rfl, List.append_nil]
      simp [optLine]
    have hshape2 : (optLines (rstripLast [p])).drop 1 = [p.1, ')', ' '] ++ rstrip p.2 := by
      rw [rstripLast, optLines_cons, show optLines [] = [] from rfl, List.append_nil]
      simp [optLine]
    rw [hshape, hshape2, rstrip_append, if_neg]
    exact rstrip_ne_nil_of_strip h0.2.2
  | p :: q :: t =>
    intro _ hok
    have hokq : ∀ p' ∈ q :: t, lineOk p' := fun p' hp' => hok p' (List.mem_cons_of_mem p hp')
    have ihq := rstrip_linesA (q :: t) (by simp) hokq
    have hne : rstrip (optLines (q :: t)) = optLines (rstripLast (q :: t)) := by
      have hq1 : optLines (q :: t) = '\n' :: ((optLines (q :: t)).drop 1) := by
        rw [optLines_cons]
        simp [optLine]
      have hq2 : optLines (rstripLast (q :: t)) = '\n' :: ((optLines (rstripLast (q :: t))).drop 1) := by
        match t with
        | [] =>
          rw [rstripLast, optLines_cons]
          simp [optLine]
        | r :: t' =>
          rw [rstripLast, optLines_cons]
          simp [optLine]
      have hdropne : (optLines (rstripLast (q :: t))).drop 1 ≠ [] := by
        match t with
        | [] =>
          rw [rstripLast, optLines_cons]
          simp [optLine]
        | r :: t' =>
          rw [rstripLast, optLines_cons]
          simp [optLine]
      rw [hq1, rstrip_cons, if_neg (by rw [ihq]; exact hdropne), ihq, ← hq2]
    have hshape : (optLines (p :: q :: t)).drop 1 =
        ([p.1, ')', ' '] ++ p.2) ++ optLines (q :: t) := by
      rw [optLines_cons]
      simp [optLine]
    have hshape2 : (optLines (rstripLast (p :: q :: t))).drop 1 =
        ([p.1, ')', ' '] ++ p.2) ++ optLines (rstripLast (q :: t)) := by
      rw [rstripLast, optLines_cons]
      simp [optLine]
    have hne2 : rstrip (optLines (q :: t)) ≠ [] := by
      rw [hne]
      have hq2 : optLines (rstripLast (q :: t)) =
          '\n' :: ((optLines (rstripLast (q :: t))).drop 1) := by
        match t with
        | [] =>
          rw [rstripLast, optLines_cons]
          simp [optLine]
        | r :: t' =>
          rw [rstripLast, optLines_cons]
          simp [optLine]
      rw [hq2]
      simp
    rw [hshape, hshape2, rstrip_append, if_neg hne2, hne]

/-- The options dict computed by `parse_questions` from a raw option
section (as returned by the options search). -/
lemma optionsOf_lines (ls : List (Char × Str)) (hls : ls ≠ []) (hok : ∀ p ∈ ls, lineOk p) :
    optionsOf ((optLines ls).drop 1) =
      buildDict (((rstripLast ls).filterMap
        (fun p => if 'A' ≤ p.1 ∧ p.1 ≤ 'D' then some (p.1, lstrip p.2) else none)).map
        (fun p => (p.1.toUpper, pyStrip p.2))) := by
  rcases ls with _ | ⟨p, t⟩
  · exact absurd rfl hls
  have hokp := hok p (List.mem_cons_self p t)
  have hshape : (optLines (p :: t)).drop 1 = p.1 :: (')' :: ' ' :: (p.2 ++ optLines t)) := by
    rw [optLines_cons]
    simp [optLine]
  have hstrip : pyStrip ((optLines (p :: t)).drop 1) = (optLines (rstripLast (p :: t))).drop 1 := by
    rw [hshape, pyStrip_head_nonWs _ (ge_A_facts hokp.1.1).1, ← hshape,
      rstrip_linesA (p :: t) (by simp) hok]
  rw [optionsOf, hstrip]
  have hok2 := rstripLast_ok (p :: t) hok
  have hshape2 : optLines (rstripLast (p :: t)) =
      '\n' :: ((optLines (rstripLast (p :: t))).drop 1) := by
    match t with
    | [] =>
      rw [rstripLast, optLines_cons]
      simp [optLine]
    | r :: t' =>
      rw [rstripLast, optLines_cons]
      simp [optLine]
  have hlen2 : (optLines (rstripLast (p :: t))).length =
      ((optLines (rstripLast (p :: t))).drop 1).length + 1 := by
    rw [hshape2]
    simp
  rw [findallOpts, (findallGo_lines (rstripLast (p :: t)) hok2).1 _ (by omega)]

/-- Validity of the four option lines of a well-formed block. -/
lemma goodLines_ok (b : BlockData) (hb : WFB b) : ∀ p ∈ goodLines b, lineOk p := by
  intro p hp
  rw [goodLines] at hp
  rcases List.mem_cons.mp hp with he | hp
  · rw [he]
    exact ⟨(by decide : ('A' : Char) ≤ 'A' ∧ ('A' : Char) ≤ 'E'), hb.2.2.2.1⟩
  rcases List.mem_cons.mp hp with he | hp
  · rw [he]
    exact ⟨(by decide : ('A' : Char) ≤ 'B' ∧ ('B' : Char) ≤ 'E'), hb.2.2.2.2.1⟩
  rcases List.mem_cons.mp hp with he | hp
  · rw [he]
    exact ⟨(by decide : ('A' : Char) ≤ 'C' ∧ ('C' : Char) ≤ 'E'), hb.2.2.2.2.2.1⟩
  rcases List.mem_cons.mp hp with he | hp
  · rw [he]
    exact ⟨(by decide : ('A' : Char) ≤ 'D' ∧ ('D' : Char) ≤ 'E'), hb.2.2.2.2.2.2.1⟩
  · exact absurd hp (List.not_mem_nil p)

/-- A well-formed block body parses to exactly the expected record. -/
lemma parseBlock_good (b : BlockData) (hb : WFB b) :
    parseBlock (renderBody b) = some (expected b) := by
  have hnum := hb.1
  have hdiff := hb.2.1
  have hquest := hb.2.2.1
  have hans := hb.2.2.2.2.2.2.2
  have hgl : goodLines b = ('A', b.oA) :: [('B', b.oB), ('C', b.oC), ('D', b.oD)] := rfl
  have hlines := goodLines_ok b hb
  rw [hgl] at hlines
  have hrb : renderBody b =
      bodyCore b.num b.diff b.quest
        (optLines (('A', b.oA) :: [('B', b.oB), ('C', b.oC), ('D', b.oD)])) (correctTail b.ans) := rfl
  rw [hrb, parseBlock]
  rw [searchDiff_body _ _ _ _ _ hnum hdiff]
  dsimp only
  rw [searchQuestion_body _ _ _ _ _ hnum hdiff hquest.1 (lstrip_ne_nil_of_strip hquest.2)]
  dsimp only
  rw [searchOptions_body _ _ _ _ _ _ hnum hdiff hquest.1
    (hlines _ (List.mem_cons_self _ _)) (fun p' hp' => hlines p' (List.mem_cons_of_mem _ hp'))]
  dsimp only
  rw [searchCorrect_body _ _ _ _ _ hnum hdiff hquest.1 hlines hans]
  dsimp only
  have heq : (optLines (('A', b.oA) :: [('B', b.oB), ('C', b.oC), ('D', b.oD)])).drop 1 =
      ('A', b.oA).1 :: ')' :: ' ' :: (('A', b.oA).2 ++ optLines [('B', b.oB), ('C', b.oC), ('D', b.oD)]) := by
    rw [optLines_cons]
    simp [optLine]
  rw [← heq, optionsOf_lines _ (by simp) hlines]
  have hfm : ((rstripLast (('A', b.oA) :: [('B', b.oB), ('C', b.oC), ('D', b.oD)])).filterMap
      (fun p => if 'A' ≤ p.1 ∧ p.1 ≤ 'D' then some (p.1, lstrip p.2) else none)) =
      [('A', lstrip b.oA), ('B', lstrip b.oB), ('C', lstrip b.oC), ('D', lstrip (rstrip b.oD))] := by
    rw [show rstripLast (('A', b.oA) :: [('B', b.oB), ('C', b.oC), ('D', b.oD)]) =
      [('A', b.oA), ('B', b.oB), ('C', b.oC), ('D', rstrip b.oD)] from rfl]
    rw [List.filterMap_cons_some
        (by rw [if_pos ((by decide : ('A' : Char) ≤ 'A' ∧ ('A' : Char) ≤ 'D') : _)]),
      List.filterMap_cons_some
        (by rw [if_pos ((by decide : ('A' : Char) ≤ 'B' ∧ ('B' : Char) ≤ 'D') : _)]),
      List.filterMap_cons_some
        (by rw [if_pos ((by decide : ('A' : Char) ≤ 'C' ∧ ('C' : Char) ≤ 'D') : _)]),
      List.filterMap_cons_some
        (by rw [if_pos ((by decide : ('A' : Char) ≤ 'D' ∧ ('D' : Char) ≤ 'D') : _)]),
      List.filterMap_nil]
  rw [hfm]
  have hmap : ([('A', lstrip b.oA), ('B', lstrip b.oB), ('C', lstrip b.oC),
      ('D', lstrip (rstrip b.oD))].map (fun p => (p.1.toUpper, pyStrip p.2))) =
      [('A', pyStrip b.oA), ('B', pyStrip b.oB), ('C', pyStrip b.oC), ('D', pyStrip b.oD)] := by
    simp only [List.map_cons, List.map_nil]
    rw [show ('A').toUpper = 'A' from by decide, show ('B').toUpper = 'B' from by decide,
      show ('C').toUpper = 'C' from by decide, show ('D').toUpper = 'D' from by decide]
    rw [pyStrip_lstrip, pyStrip_lstrip, pyStrip_lstrip]
    rw [show lstrip (rstrip b.oD) = pyStrip b.oD from rfl, pyStrip_idem]
  rw [hmap]
  have hbd : buildDict [('A', pyStrip b.oA), ('B', pyStrip b.oB), ('C', pyStrip b.oC),
      ('D', pyStrip b.oD)] =
      [('A', pyStrip b.oA), ('B', pyStrip b.oB), ('C', pyStrip b.oC), ('D', pyStrip b.oD)] := rfl
  rw [hbd]
  rw [if_pos ⟨by rw [pyStrip_lstrip]; exact hquest.2, by rfl, by simp⟩]
  rw [expected, pyStrip_lstrip, (ansOk_facts hans).2.1]

/-- A block body missing its `Correct:` line parses to nothing: the options
search raises (`.group(1)` on `None`) and the block is skipped. -/
lemma parseBlock_noCorrect (b : BlockData) (hb : WFB b) :
    parseBlock (renderTagged (BlockKind.noCorrect, b)) = none := by
  have hnum := hb.1
  have hdiff := hb.2.1
  have hquest := hb.2.2.1
  have hrb : renderTagged (BlockKind.noCorrect, b) =
      bodyCore b.num b.diff b.quest (optLines (goodLines b)) ['\n'] := rfl
  rw [hrb, parseBlock]
  rw [searchDiff_body _ _ _ _ _ hnum hdiff]
  dsimp only
  rw [searchQuestion_body _ _ _ _ _ hnum hdiff hquest.1 (lstrip_ne_nil_of_strip hquest.2)]
  dsimp only
  rw [searchOptions_body_none _ _ _ _ hnum hdiff hquest.1 (goodLines_ok b hb)]

/-- A block body with only three option lines parses to nothing: the
options dict has 3 entries and the validation of line 102 fails. -/
lemma parseBlock_threeOpts (b : BlockData) (hb : WFB b) :
    parseBlock (renderTagged (BlockKind.threeOpts, b)) = none := by
  have hnum := hb.1
  have hdiff := hb.2.1
  have hquest := hb.2.2.1
  have hans := hb.2.2.2.2.2.2.2
  have hlines : ∀ p ∈ ('A', b.oA) :: [('B', b.oB), ('C', b.oC)], lineOk p := by
    intro p hp
    rcases List.mem_cons.mp hp with he | hp
    · rw [he]
      exact ⟨(by decide : ('A' : Char) ≤ 'A' ∧ ('A' : Char) ≤ 'E'), hb.2.2.2.1⟩
    rcases List.mem_cons.mp hp with he | hp
    · rw [he]
      exact ⟨(by decide : ('A' : Char) ≤ 'B' ∧ ('B' : Char) ≤ 'E'), hb.2.2.2.2.1⟩
    rcases List.mem_cons.mp hp with he | hp
    · rw [he]
      exact ⟨(by decide : ('A' : Char) ≤ 'C' ∧ ('C' : Char) ≤ 'E'), hb.2.2.2.2.2.1⟩
    · exact absurd hp (List.not_mem_nil p)
  have hrb : renderTagged (BlockKind.threeOpts, b) =
      bodyCore b.num b.diff b.quest
        (optLines (('A', b.oA) :: [('B', b.oB), ('C', b.oC)])) (correctTail b.ans) := rfl
  rw [hrb, parseBlock]
  rw [searchDiff_body _ _ _ _ _ hnum hdiff]
  dsimp only
  rw [searchQuestion_body _ _ _ _ _ hnum hdiff hquest.1 (lstrip_ne_nil_of_strip hquest.2)]
  dsimp only
  rw [searchOptions_body _ _ _ _ _ _ hnum hdiff hquest.1
    (hlines _ (List.mem_cons_self _ _)) (fun p' hp' => hlines p' (List.mem_cons_of_mem _ hp'))]
  dsimp only
  rw [searchCorrect_body _ _ _ _ _ hnum hdiff hquest.1 hlines hans]
  dsimp only
  have heq : (optLines (('A', b.oA) :: [('B', b.oB), ('C', b.oC)])).drop 1 =
      ('A', b.oA).1 :: ')' :: ' ' :: (('A', b.oA).2 ++ optLines [('B', b.oB), ('C', b.oC)]) := by
    rw [optLines_cons]
    simp [optLine]
  rw [← heq, optionsOf_lines _ (by simp) hlines]
  have hfm : ((rstripLast (('A', b.oA) :: [('B', b.oB), ('C', b.oC)])).filterMap
      (fun p => if 'A' ≤ p.1 ∧ p.1 ≤ 'D' then some (p.1, lstrip p.2) else none)) =
      [('A', lstrip b.oA), ('B', lstrip b.oB), ('C', lstrip (rstrip b.oC))] := by
    rw [show rstripLast (('A', b.oA) :: [('B', b.oB), ('C', b.oC)]) =
      [('A', b.oA), ('B', b.oB), ('C', rstrip b.oC)] from rfl]
    rw [List.filterMap_cons_some
        (by rw [if_pos ((by decide : ('A' : Char) ≤ 'A' ∧ ('A' : Char) ≤ 'D') : _)]),
      List.filterMap_cons_some
        (by rw [if_pos ((by decide : ('A' : Char) ≤ 'B' ∧ ('B' : Char) ≤ 'D') : _)]),
      List.filterMap_cons_some
        (by rw [if_pos ((by decide : ('A' : Char) ≤ 'C' ∧ ('C' : Char) ≤ 'D') : _)]),
      List.filterMap_nil]
  rw [hfm]
  rw [if_neg]
  intro hcon
  have hlen := hcon.2.1
  simp only [List.map_cons, List.map_nil] at hlen
  have : (buildDict [(('A').toUpper, pyStrip (lstrip b.oA)), (('B').toUpper, pyStrip (lstrip b.oB)),
      (('C').toUpper, pyStrip (lstrip (rstrip b.oC)))]).length = 3 := rfl
  rw [this] at hlen
  exact absurd hlen (by decide)

/-- A block body with an extra `E)` option line still parses to the
expected record: the findall pattern only matches letters A–D, so the `E)`
line is ignored. -/
lemma parseBlock_goodE (b : BlockData) (oE : Str) (hb : WFB b) (hoE : fieldOk oE) :
    parseBlock (renderBodyE b oE) = some (expected b) := by
  have hnum := hb.1
  have hdiff := hb.2.1
  have hquest := hb.2.2.1
  have hans := hb.2.2.2.2.2.2.2
  have hlines : ∀ p ∈ ('A', b.oA) :: [('B', b.oB), ('C', b.oC), ('D', b.oD), ('E', oE)], lineOk p := by
    intro p hp
    rcases List.mem_cons.mp hp with he | hp
    · rw [he]
      exact ⟨(by decide : ('A' : Char) ≤ 'A' ∧ ('A' : Char) ≤ 'E'), hb.2.2.2.1⟩
    rcases List.mem_cons.mp hp with he | hp
    · rw [he]
      exact ⟨(by decide : ('A' : Char) ≤ 'B' ∧ ('B' : Char) ≤ 'E'), hb.2.2.2.2.1⟩
    rcases List.mem_cons.mp hp with he | hp
    · rw [he]
      exact ⟨(by decide : ('A' : Char) ≤ 'C' ∧ ('C' : Char) ≤ 'E'), hb.2.2.2.2.2.1⟩
    rcases List.mem_cons.mp hp with he | hp
    · rw [he]
      exact ⟨(by decide : ('A' : Char) ≤ 'D' ∧ ('D' : Char) ≤ 'E'), hb.2.2.2.2.2.2.1⟩
    rcases List.mem_cons.mp hp with he | hp
    · rw [he]
      exact ⟨(by decide : ('A' : Char) ≤ 'E' ∧ ('E' : Char) ≤ 'E'), hoE⟩
    · exact absurd hp (List.not_mem_nil p)
  have hrb : renderBodyE b oE =
      bodyCore b.num b.diff b.quest
        (optLines (('A', b.oA) :: [('B', b.oB), ('C', b.oC), ('D', b.oD), ('E', oE)]))
        (correctTail b.ans) := rfl
  rw [hrb, parseBlock]
  rw [searchDiff_body _ _ _ _ _ hnum hdiff]
  dsimp only
  rw [searchQuestion_body _ _ _ _ _ hnum hdiff hquest.1 (lstrip_ne_nil_of_strip hquest.2)]
  dsimp only
  rw [searchOptions_body _ _ _ _ _ _ hnum hdiff hquest.1
    (hlines _ (List.mem_cons_self _ _)) (fun p' hp' => hlines p' (List.mem_cons_of_mem _ hp'))]
  dsimp only
  rw [searchCorrect_body _ _ _ _ _ hnum hdiff hquest.1 hlines hans]
  dsimp only
  have heq : (optLines (('A', b.oA) :: [('B', b.oB), ('C', b.oC), ('D', b.oD), ('E', oE)])).drop 1 =
      ('A', b.oA).1 :: ')' :: ' ' ::
        (('A', b.oA).2 ++ optLines [('B', b.oB), ('C', b.oC), ('D', b.oD), ('E', oE)]) := by
    rw [optLines_cons]
    simp [optLine]
  rw [← heq, optionsOf_lines _ (by simp) hlines]
  have hfm : ((rstripLast (('A', b.oA) :: [('B', b.oB), ('C', b.oC), ('D', b.oD), ('E', oE)])).filterMap
      (fun p => if 'A' ≤ p.1 ∧ p.1 ≤ 'D' then some (p.1, lstrip p.2) else none)) =
      [('A', lstrip b.oA), ('B', lstrip b.oB), ('C', lstrip b.oC), ('D', lstrip b.oD)] := by
    rw [show rstripLast (('A', b.oA) :: [('B', b.oB), ('C', b.oC), ('D', b.oD), ('E', oE)]) =
      [('A', b.oA), ('B', b.oB), ('C', b.oC), ('D', b.oD), ('E', rstrip oE)] from rfl]
    rw [List.filterMap_cons_some
        (by rw [if_pos ((by decide : ('A' : Char) ≤ 'A' ∧ ('A' : Char) ≤ 'D') : _)]),
      List.filterMap_cons_some
        (by rw [if_pos ((by decide : ('A' : Char) ≤ 'B' ∧ ('B' : Char) ≤ 'D') : _)]),
      List.filterMap_cons_some
        (by rw [if_pos ((by decide : ('A' : Char) ≤ 'C' ∧ ('C' : Char) ≤ 'D') : _)]),
      List.filterMap_cons_some
        (by rw [if_pos ((by decide : ('A' : Char) ≤ 'D' ∧ ('D' : Char) ≤ 'D') : _)]),
      List.filterMap_cons_none
        (by rw [if_neg (by decide : ¬(('A' : Char) ≤ 'E' ∧ ('E' : Char) ≤ 'D'))]),
      List.filterMap_nil]
  rw [hfm]
  have hmap : ([('A', lstrip b.oA), ('B', lstrip b.oB), ('C', lstrip b.oC),
      ('D', lstrip b.oD)].map (fun p => (p.1.toUpper, pyStrip p.2))) =
      [('A', pyStrip b.oA), ('B', pyStrip b.oB), ('C', pyStrip b.oC), ('D', pyStrip b.oD)] := by
    simp only [List.map_cons, List.map_nil]
    rw [show ('A').toUpper = 'A' from by decide, show ('B').toUpper = 'B' from by decide,
      show ('C').toUpper = 'C' from by decide, show ('D').toUpper = 'D' from by decide]
    rw [pyStrip_lstrip, pyStrip_lstrip, pyStrip_lstrip, pyStrip_lstrip]
  rw [hmap]
  have hbd : buildDict [('A', pyStrip b.oA), ('B', pyStrip b.oB), ('C', pyStrip b.oC),
      ('D', pyStrip b.oD)] =
      [('A', pyStrip b.oA), ('B', pyStrip b.oB), ('C', pyStrip b.oC), ('D', pyStrip b.oD)] := rfl
  rw [hbd]
  rw [if_pos ⟨by rw [pyStrip_lstrip]; exact hquest.2, by rfl, by simp⟩]
  rw [expected, pyStrip_lstrip, (ansOk_facts hans).2.1]

/-!
### Splitting a rendered text into blocks -/

/-- A string without the pattern head contains no occurrence. -/
lemma containsSub_none_of_no_head (p0 : Char) (ps : Str) :
    ∀ x : Str, (∀ c ∈ x, c ≠ p0) → containsSub (p0 :: ps) x = false := by
  intro x
  induction x with
  | nil => intro _; rfl
  | cons c cs ih =>
    intro h
    rw [containsSub,
      pfx_head_false _ _ (fun he : p0 = c => h c (List.mem_cons_self c cs) he.symm),
      Bool.false_or]
    exact ih (fun c' hc' => h c' (List.mem_cons_of_mem c hc'))

/-- No character of a rendered block body is an opening bracket, so the
delimiter cannot occur inside a body. -/
lemma bodyCore_no_lbrack (num diff quest optSec tail : Str)
    (hnum : numOk num) (hdiff : diffOk diff) (hq : ∀ c ∈ quest, fieldChar c = true)
    (hopt : ∀ c ∈ optSec, c ≠ '[') (htail : ∀ c ∈ tail, c ≠ '[') :
    ∀ c ∈ bodyCore num diff quest optSec tail, c ≠ '[' := by
  intro c hc
  rw [bodyCore] at hc
  rcases List.mem_append.mp hc with hc | h
  swap
  · exact htail c h
  rcases List.mem_append.mp hc with hc | h
  swap
  · exact hopt c h
  rcases List.mem_append.mp hc with hc | h
  swap
  · have hd : ∀ x ∈ "\nOptions:".data, x ≠ '[' := by decide
    exact hd c h
  rcases List.mem_append.mp hc with hc | h
  swap
  · exact (fieldChar_ne (hq c h)).2.2.2.2
  rcases List.mem_append.mp hc with hc | h
  swap
  · have hd : ∀ x ∈ "\nQuestion: ".data, x ≠ '[' := by decide
    exact hd c h
  rcases List.mem_append.mp hc with hc | h
  swap
  · exact (diffOk_ne hdiff h).2.2.2.2
  rcases List.mem_append.mp hc with hc | h
  swap
  · have hd : ∀ x ∈ "]\nDifficulty: ".data, x ≠ '[' := by decide
    exact hd c h
  · exact ne_of_pred_false (hnum c hc) (by decide)

/-- Characters of a rendered option section are never an opening bracket. -/
lemma optLines_no_lbrack {ls : List (Char × Str)} (h : ∀ p ∈ ls, lineOk p) :
    ∀ c ∈ optLines ls, c ≠ '[' := by
  intro c hc
  rcases optLines_chars h c hc with he | he | he | he | he
  · rw [he]; decide
  · rw [he]; decide
  · rw [he]; decide
  · intro hcon
    rw [hcon] at he
    exact absurd he.2 (by decide)
  · exact (fieldChar_ne he).2.2.2.2

/-- Characters of the `Correct:` line are never an opening bracket. -/
lemma correctTail_no_lbrack {a : Char} (ha : ansOk a) :
    ∀ c ∈ correctTail a, c ≠ '[' := by
  intro c hc
  rw [correctTail] at hc
  rcases List.mem_append.mp hc with h | hc
  · rcases List.mem_append.mp h with h' | h'
    · have hd : ∀ x ∈ "\nCorrect: ".data, x ≠ '[' := by decide
      exact hd c h'
    · rw [List.mem_singleton.mp h']
      rcases ha with he | he | he | he <;> (rw [he]; decide)
  · rw [List.mem_singleton.mp hc]
    decide

/-- A well-formed block body never contains an opening bracket. -/
lemma renderBody_no_lbrack (b : BlockData) (hb : WFB b) :
    ∀ c ∈ renderBody b, c ≠ '[' := by
  rw [renderBody]
  exact bodyCore_no_lbrack _ _ _ _ _ hb.1 hb.2.1 hb.2.2.1.1
    (optLines_no_lbrack (goodLines_ok b hb)) (correctTail_no_lbrack hb.2.2.2.2.2.2.2)

/-- A tagged block body never contains an opening bracket. -/
lemma renderTagged_no_lbrack (p : BlockKind × BlockData) (hb : WFB p.2) :
    ∀ c ∈ renderTagged p, c ≠ '[' := by
  rcases p with ⟨k, b⟩
  cases k with
  | good => exact renderBody_no_lbrack b hb
  | noCorrect =>
    rw [renderTagged]
    exact bodyCore_no_lbrack _ _ _ _ _ hb.1 hb.2.1 hb.2.2.1.1
      (optLines_no_lbrack (goodLines_ok b hb)) (by intro c hc; rw [List.mem_singleton.mp hc]; decide)
  | threeOpts =>
    rw [renderTagged]
    have h3 : ∀ p' ∈ [('A', b.oA), ('B', b.oB), ('C', b.oC)], lineOk p' := by
      intro p' hp'
      rcases List.mem_cons.mp hp' with he | hp'
      · rw [he]
        exact ⟨(by decide : ('A' : Char) ≤ 'A' ∧ ('A' : Char) ≤ 'E'), hb.2.2.2.1⟩
      rcases List.mem_cons.mp hp' with he | hp'
      · rw [he]
        exact ⟨(by decide : ('A' : Char) ≤ 'B' ∧ ('B' : Char) ≤ 'E'), hb.2.2.2.2.1⟩
      rcases List.mem_cons.mp hp' with he | hp'
      · rw [he]
        exact ⟨(by decide : ('A' : Char) ≤ 'C' ∧ ('C' : Char) ≤ 'E'), hb.2.2.2.2.2.1⟩
      · exact absurd hp' (List.not_mem_nil p')
    exact bodyCore_no_lbrack _ _ _ _ _ hb.1 hb.2.1 hb.2.2.1.1
      (optLines_no_lbrack h3) (correctTail_no_lbrack hb.2.2.2.2.2.2.2)

/-- The fuelled split on a delimiter-free string. -/
lemma splitGo_no (f : Nat) (s : Str) (h : ∀ c ∈ s, c ≠ '[') : splitGo f s = [s] := by
  cases f with
  | zero => rfl
  | succ f =>
    rw [splitGo, firstOcc_none_of_not_contains QDELIM s
      (containsSub_none_of_no_head '[' _ s h)]

/-- One delimiter consumed by the fuelled split. -/
lemma splitGo_cons (f : Nat) (a r : Str) (h : ∀ c ∈ a, c ≠ '[') :
    splitGo (f + 1) (a ++ (QDELIM ++ r)) = a :: splitGo f r := by
  have hq : QDELIM = '[' :: "Question_".data := rfl
  have hocc : firstOcc QDELIM (a ++ (QDELIM ++ r)) = some a.length := by
    rw [hq, firstOcc_skip '[' _ a _ h, firstOcc_self]
    simp
  rw [splitGo, hocc]
  have htake : (a ++ (QDELIM ++ r)).take a.length = a := List.take_left _ _
  have hdrop : (a ++ (QDELIM ++ r)).drop (a.length + 10) = r := by
    rw [← List.drop_drop, List.drop_left]
    rw [show (10 : Nat) = QDELIM.length from rfl, List.drop_left]
  dsimp only
  rw [htake, hdrop]

/-- The fuelled split of a delimiter-prefixed block sequence, with a
delimiter-free leading chunk. -/
lemma splitGo_bodies :
    ∀ (bodies : List Str) (f : Nat) (a : Str),
      (∀ c ∈ a, c ≠ '[') → (∀ x ∈ bodies, ∀ c ∈ x, c ≠ '[') → bodies.length ≤ f →
      splitGo f (a ++ (bodies.map (fun x => QDELIM ++ x)).flatten) = a :: bodies := by
  intro bodies
  induction bodies with
  | nil =>
    intro f a ha _ _
    rw [List.map_nil, List.flatten_nil, List.append_nil]
    rw [splitGo_no f a ha]
  | cons x bs ih =>
    intro f a ha hb hf
    obtain ⟨f', rfl⟩ : ∃ f', f = f' + 1 := by
      rcases f with _ | f'
      · exfalso
        rw [List.length_cons] at hf
        omega
      · exact ⟨f', rfl⟩
    rw [List.map_cons, List.flatten_cons, List.append_assoc QDELIM x, splitGo_cons f' a _ ha]
    rw [ih f' x (hb x (List.mem_cons_self x bs))
      (fun x' hx' => hb x' (List.mem_cons_of_mem x hx'))
      (by rw [List.length_cons] at hf; omega)]

/-- A block sequence is at most as long as its rendered text. -/
lemma bodies_length_le (bodies : List Str) :
    bodies.length ≤ ((bodies.map (fun x => QDELIM ++ x)).flatten).length := by
  induction bodies with
  | nil => simp
  | cons x bs ih =>
    rw [List.map_cons, List.flatten_cons, List.length_append, List.length_cons,
      List.length_append]
    have : QDELIM.length = 10 := rfl
    omega

/-- Splitting a rendered text on the delimiter recovers the empty preamble
and the block bodies. -/
lemma splitOnDelim_blocks (bodies : List Str) (h : ∀ x ∈ bodies, ∀ c ∈ x, c ≠ '[') :
    splitOnDelim ((bodies.map (fun x => QDELIM ++ x)).flatten) = [] :: bodies := by
  rw [splitOnDelim]
  have := splitGo_bodies bodies ((bodies.map (fun x => QDELIM ++ x)).flatten).length []
    (by intro c hc; exact absurd hc (List.not_mem_nil c)) h (bodies_length_le bodies)
  rw [List.nil_append] at this
  exact this

/-- Parsing the rendered bodies of well-formed blocks produces the expected
records in order. -/
lemma filterMap_good :
    ∀ bs : List BlockData, (∀ b ∈ bs, WFB b) →
      (bs.map renderBody).filterMap parseBlock = bs.map expected := by
  intro bs
  induction bs with
  | nil => intro _; rfl
  | cons b t ih =>
    intro h
    rw [List.map_cons, List.map_cons,
      List.filterMap_cons_some (parseBlock_good b (h b (List.mem_cons_self b t))),
      ih (fun b' hb' => h b' (List.mem_cons_of_mem b hb'))]

/-- `parse_questions` on a text of rendered well-formed blocks. -/
lemma parse_questions_blocks (bs : List BlockData) (h : ∀ b ∈ bs, WFB b) :
    parse_questions (renderBlocks bs) = (bs.map expected).take 7 := by
  have hmap : bs.map (fun b => QDELIM ++ renderBody b) =
      (bs.map renderBody).map (fun x => QDELIM ++ x) := by
    rw [List.map_map]
    rfl
  rw [parse_questions, renderBlocks, hmap,
    splitOnDelim_blocks (bs.map renderBody) (by
      intro x hx
      rcases List.mem_map.mp hx with ⟨b, hb, hbx⟩
      rw [← hbx]
      exact renderBody_no_lbrack b (h b hb)),
    List.drop_one, List.tail_cons, filterMap_good bs h]

/-- Parsing the rendered bodies of tagged blocks keeps exactly the good
ones, in order. -/
lemma filterMap_tagged :
    ∀ l : List (BlockKind × BlockData), (∀ p ∈ l, WFB p.2) →
      (l.map renderTagged).filterMap parseBlock =
        (l.filter (fun p => decide (p.1 = BlockKind.good))).map (fun p => expected p.2) := by
  intro l
  induction l with
  | nil => intro _; rfl
  | cons p t ih =>
    intro h
    have hp := h p (List.mem_cons_self p t)
    have ht := fun p' hp' => h p' (List.mem_cons_of_mem p hp')
    rcases p with ⟨k, b⟩
    cases k with
    | good =>
      rw [List.map_cons,
        List.filterMap_cons_some (show parseBlock (renderTagged (BlockKind.good, b)) = some (expected b) from parseBlock_good b hp),
        List.filter_cons_of_pos (by simp), List.map_cons, ih ht]
    | noCorrect =>
      rw [List.map_cons,
        List.filterMap_cons_none (parseBlock_noCorrect b hp),
        List.filter_cons_of_neg (by simp), ih ht]
    | threeOpts =>
      rw [List.map_cons,
        List.filterMap_cons_none (parseBlock_threeOpts b hp),
        List.filter_cons_of_neg (by simp), ih ht]

/-- `parse_questions` on a text of rendered tagged blocks. -/
lemma parse_questions_tagged (l : List (BlockKind × BlockData)) (h : ∀ p ∈ l, WFB p.2) :
    parse_questions (renderTaggedBlocks l) =
      ((l.filter (fun p => decide (p.1 = BlockKind.good))).map (fun p => expected p.2)).take 7 := by
  have hmap : l.map (fun p => QDELIM ++ renderTagged p) =
      (l.map renderTagged).map (fun x => QDELIM ++ x) := by
    rw [List.map_map]
    rfl
  rw [parse_questions, renderTaggedBlocks, hmap,
    splitOnDelim_blocks (l.map renderTagged) (by
      intro x hx
      rcases List.mem_map.mp hx with ⟨p, hpmem, hpx⟩
      rw [← hpx]
      exact renderTagged_no_lbrack p (h p hpmem)),
    List.drop_one, List.tail_cons, filterMap_tagged l h]

/-!
### Round trip, truncation, mixed input, extra option line
(claims C1, C2, C3, C10) -/

/-- C1: an input of exactly 7 well-formed blocks parses to exactly 7
records in order, with each field the corresponding source text after
trimming (difficulty capitalized, answer letter upper-cased). -/
theorem claim_C1 :
    ∀ bs : List BlockData, bs.length = 7 → (∀ b ∈ bs, WFB b) →
      parse_questions (renderBlocks bs) = bs.map expected := by
  intro bs hlen h
  rw [parse_questions_blocks bs h]
  exact List.take_of_length_le (by rw [List.length_map, hlen])

/-- Witness for C1 at seven concrete blocks. -/
theorem claim_C1_witness :
    ex7.length = 7 ∧ (∀ b ∈ ex7, WFB b) ∧
      parse_questions (renderBlocks ex7) = ex7.map expected :=
  ⟨rfl, by decide, claim_C1 ex7 rfl (by decide)⟩

/-- C2: an input of 5 well-formed blocks, one block missing `Correct:` and
one with only three options, in any order, parses to exactly the 5 records
of the well-formed blocks in their original relative order. -/
theorem claim_C2 :
    ∀ l : List (BlockKind × BlockData), (∀ p ∈ l, WFB p.2) →
      (l.filter (fun p => decide (p.1 = BlockKind.good))).length = 5 →
      (l.filter (fun p => decide (p.1 = BlockKind.noCorrect))).length = 1 →
      (l.filter (fun p => decide (p.1 = BlockKind.threeOpts))).length = 1 →
      parse_questions (renderTaggedBlocks l) =
        (l.filter (fun p => decide (p.1 = BlockKind.good))).map (fun p => expected p.2) ∧
      (parse_questions (renderTaggedBlocks l)).length = 5 := by
  intro l h h5 _ _
  have hp := parse_questions_tagged l h
  constructor
  · rw [hp]
    exact List.take_of_length_le (by rw [List.length_map, h5]; omega)
  · rw [hp, List.length_take, List.length_map, h5]
    omega

/-- Witness for C2 at a concrete interleaving of 5 good and 2 malformed
blocks. -/
theorem claim_C2_witness :
    (∀ p ∈ exMixed, WFB p.2) ∧
      parse_questions (renderTaggedBlocks exMixed) =
        (exMixed.filter (fun p => decide (p.1 = BlockKind.good))).map (fun p => expected p.2) :=
  ⟨by decide, (claim_C2 exMixed (by decide) (by decide) (by decide) (by decide)).1⟩

/-- C3: the output of `parse_questions` never exceeds 7 records, and on 10
well-formed blocks it returns exactly the first 7, in order. -/
theorem claim_C3 :
    (∀ s : Str, (parse_questions s).length ≤ 7) ∧
    ∀ bs : List BlockData, bs.length = 10 → (∀ b ∈ bs, WFB b) →
      parse_questions (renderBlocks bs) = (bs.take 7).map expected := by
  constructor
  · intro s
    rw [parse_questions, List.length_take]
    omega
  · intro bs hlen h
    rw [parse_questions_blocks bs h]
    exact (List.map_take expected bs 7).symm

/-- Witness for C3 at ten concrete blocks. -/
theorem claim_C3_witness :
    (parse_questions "no block".data).length ≤ 7 ∧ ex10.length = 10 ∧
      parse_questions (renderBlocks ex10) = (ex10.take 7).map expected :=
  ⟨claim_C3.1 _, rfl, claim_C3.2 ex10 rfl (by decide)⟩

/-- C10: a block with option lines `A)` through `D)` plus an extra `E)`
line still parses to a valid record holding exactly the four A–D options;
the `E)` line is silently discarded. -/
theorem claim_C10 :
    ∀ (b : BlockData) (oE : Str), WFB b → fieldOk oE →
      parseBlock (renderBodyE b oE) = some (expected b) ∧
      (expected b).options.map Prod.fst = ['A', 'B', 'C', 'D'] := by
  intro b oE hb hoE
  exact ⟨parseBlock_goodE b oE hb hoE, rfl⟩

/-- Witness for C10 at a concrete block and `E)` text. -/
theorem claim_C10_witness :
    WFB (mkSample '8') ∧ fieldOk "ee".data ∧
      parseBlock (renderBodyE (mkSample '8') "ee".data) = some (expected (mkSample '8')) :=
  ⟨by decide, by decide, (claim_C10 (mkSample '8') "ee".data (by decide) (by decide)).1⟩
